import Mathlib

/-!
Verification of the member-collection deduplication and rate-adaptive
dispatch loop of the Telegram-add-member repository.

The Python sources `src/get_members.py` (the Collector) and
`src/add_members.py` (the Dispatcher) are shallowly embedded below.
Network effects (the wrapped client library's RPC calls and their outcomes,
the random number generator, and the authorization state of each session)
are passed in explicitly as environment functions; sleeps and add attempts
are recorded in an explicit event trace.
-/

namespace TelegramAddMember

/-! ## Data model (Collector, `get_members.py`) -/

/-- One scraped user's record as produced by `MemberScraper.user_to_dict`:
the dictionary stored as a value of `self.all_members` (it contains the
`id` key itself). -/
structure CandidateRecord where
  id : Nat
  access_hash : Int
  username : Option String
  first_name : String
  last_name : String
  phone : Option String
  bot : Bool
  verified : Bool
  restricted : Bool
  scam : Bool
  fake : Bool
  premium : Bool
  deriving DecidableEq, Repr

/-- A `telethon` `User` object as observed by the Collector (the fields the
source reads, including the `deleted` flag which is checked but not stored). -/
structure TgUser where
  id : Nat
  access_hash : Int
  username : Option String
  first_name : String
  last_name : String
  phone : Option String
  bot : Bool
  deleted : Bool
  verified : Bool
  restricted : Bool
  scam : Bool
  fake : Bool
  premium : Bool
  deriving DecidableEq, Repr

/-- Embedding of `MemberScraper.user_to_dict`. -/
def user_to_dict (u : TgUser) : CandidateRecord :=
  { id := u.id, access_hash := u.access_hash, username := u.username,
    first_name := u.first_name, last_name := u.last_name, phone := u.phone,
    bot := u.bot, verified := u.verified, restricted := u.restricted,
    scam := u.scam, fake := u.fake, premium := u.premium }

/-- The Candidate Set `self.all_members`: a Python dict keyed by `user.id`,
modelled as an association list in insertion order (Python dicts preserve
insertion order; assigning to an existing key updates the value in place). -/
abbrev CandidateSet := List CandidateRecord

/-- Python dict assignment `m[v.id] = v`: update in place if the key is
present, append otherwise. -/
def dictInsert (m : CandidateSet) (v : CandidateRecord) : CandidateSet :=
  match m with
  | [] => [v]
  | r :: rest => if r.id = v.id then v :: rest else r :: dictInsert rest v

/-- Lookup by id (the dict read `m[k]`). -/
def lookupA (m : CandidateSet) (k : Nat) : Option CandidateRecord :=
  m.find? (fun r => r.id == k)

/-- Key membership (the dict test `k in m`). -/
def hasKey (m : CandidateSet) (k : Nat) : Bool :=
  m.any (fun r => r.id == k)

/-! ## Collector retrieval strategies -/

/-- A peer observed by the Collector: the `isinstance(x, User)` checks in the
source distinguish users from channels, and `message.sender` may be absent. -/
inductive Sender where
  | user (u : TgUser)
  | channel (cid : Nat)
  | nosender
  deriving DecidableEq, Repr

/-- Generic merge of a list of observed peers into the Candidate Set: the
shared loop body `if isinstance(x, User) and <keep x>:
self.all_members[x.id] = self.user_to_dict(x)`. -/
def mergeSenders (keep : TgUser → Bool) (m : CandidateSet) (xs : List Sender) :
    CandidateSet :=
  xs.foldl
    (fun acc s =>
      match s with
      | .user u => if keep u then dictInsert acc (user_to_dict u) else acc
      | _ => acc) m

/-- The filter of the message-history scan, the recent-participants pass and
the search pass: `not x.bot and not x.deleted`. -/
def keepMR (u : TgUser) : Bool := !u.bot && !u.deleted

/-- The filter of the reaction scan: `not reaction.peer.bot` (no `deleted`
check in the source). -/
def keepReact (u : TgUser) : Bool := !u.bot

/-- Embedding of `MemberScraper.get_members_from_messages`: `senders` is the
sequence of `message.sender` values yielded by `client.iter_messages`. -/
def get_members_from_messages (senders : List Sender) (m : CandidateSet) :
    CandidateSet :=
  mergeSenders keepMR m senders

/-- Embedding of `MemberScraper.get_members_from_recent`: `users` is
`participants.users` of the `ChannelParticipantsRecent` request. -/
def get_members_from_recent (users : List Sender) (m : CandidateSet) :
    CandidateSet :=
  mergeSenders keepMR m users

/-- Embedding of `MemberScraper.get_members_from_reactions`: one entry per
message, `none` when fetching that message's reactions raised (the source
swallows the exception and continues with the next message). -/
def get_members_from_reactions (fetches : List (Option (List Sender)))
    (m : CandidateSet) : CandidateSet :=
  fetches.foldl
    (fun acc f =>
      match f with
      | none => acc
      | some peers => mergeSenders keepReact acc peers) m

/-- The last element of `xs` that the merge loop actually inserts under key
`k` (a kept user with id `k`), if any. -/
def lastIns (keep : TgUser → Bool) (xs : List Sender) (k : Nat) : Option TgUser :=
  match xs with
  | [] => none
  | x :: rest =>
    match lastIns keep rest k with
    | some u => some u
    | none =>
      match x with
      | .user u => if keep u && u.id == k then some u else none
      | _ => none

/-- Result of one `GetParticipantsRequest` with a
`ChannelParticipantsSearch(pattern)` filter, as seen by the search loop:
either it returns a user page, raises `FloodWaitError` with a
server-specified wait, or raises some other exception. -/
inductive SearchOutcome where
  | ok (users : List Sender)
  | floodWait (seconds : Nat)
  | err
  deriving DecidableEq, Repr

/-- Observable events of the Collector's search loop. -/
inductive CEvent where
  | query (p : String)
  | sleep (n : Nat)
  deriving DecidableEq, Repr

/-- The fixed pattern list of `MemberScraper.get_members_by_search`. -/
def search_patterns : List String :=
  ["a", "e", "i", "o", "u",
   "al", "an", "be", "ch", "de", "el", "jo", "ka", "ma", "mi",
   "mo", "ra", "sa", "sh", "st", "th", "wi",
   "1", "2", "3", "4", "5", "6", "7", "8", "9", "0"]

/-- The events one pattern iteration produces: a query, then on success the
fixed anti-flood sleep of 2, on `FloodWaitError` the server-specified sleep,
and on any other exception nothing further. -/
def blockOf (env : String → SearchOutcome) (p : String) : List CEvent :=
  match env p with
  | .ok _ => [.query p, .sleep 2]
  | .floodWait s => [.query p, .sleep s]
  | .err => [.query p]

/-- One iteration of the `for pattern in search_patterns` loop. -/
def searchStep (env : String → SearchOutcome)
    (acc : CandidateSet × List CEvent) (p : String) :
    CandidateSet × List CEvent :=
  match env p with
  | .ok users => (mergeSenders keepMR acc.1 users, acc.2 ++ [.query p, .sleep 2])
  | .floodWait s => (acc.1, acc.2 ++ [.query p, .sleep s])
  | .err => (acc.1, acc.2 ++ [.query p])

/-- Embedding of `MemberScraper.get_members_by_search`: iterate the fixed
pattern list once, in order; a `FloodWaitError` sleeps and falls through to
the next pattern of the `for` loop. -/
def get_members_by_search (env : String → SearchOutcome) (m : CandidateSet) :
    CandidateSet × List CEvent :=
  search_patterns.foldl (searchStep env) (m, [])

/-- The sub-sequence of queried patterns in a Collector event trace. -/
def queriesOf : List CEvent → List String
  | [] => []
  | .query p :: r => p :: queriesOf r
  | .sleep _ :: r => queriesOf r

/-- Trace well-formedness for the search loop: every query whose outcome was
a rate-limit signal is immediately followed by a sleep of the
server-specified duration. -/
def searchOK (env : String → SearchOutcome) : List CEvent → Bool
  | [] => true
  | .query p :: rest =>
    (match env p with
     | .floodWait w =>
       match rest with
       | .sleep d :: _ => d == w
       | _ => false
     | _ => true) && searchOK env rest
  | .sleep _ :: rest => searchOK env rest

/-- Embedding of the retrieval part of `MemberScraper.run`: the four
strategies applied in source order to the initially empty Candidate Set. -/
def scrapeAll (recentUsers : List Sender) (msgSenders : List Sender)
    (reactionFetches : List (Option (List Sender)))
    (searchEnv : String → SearchOutcome) : CandidateSet × List CEvent :=
  let m1 := get_members_from_recent recentUsers []
  let m2 := get_members_from_messages msgSenders m1
  let m3 := get_members_from_reactions reactionFetches m2
  get_members_by_search searchEnv m3

/-- No record of the set is a bot. -/
def noBot (m : CandidateSet) : Prop := ∀ r ∈ m, r.bot = false

/-! ## Data model (Dispatcher, `add_members.py`) -/

/-- The configuration keys `MemberAdder` reads from `config.json`. -/
structure Config where
  accounts : List String
  group_source : String
  group_target : String
  members_to_add : Nat
  min_delay : Nat
  max_delay : Nat
  max_adds_per_day_per_account : Nat

/-- Outcome of one `InviteToChannelRequest`, one constructor per `except`
branch of `MemberAdder.add_member` (the source has no dedicated
`UserIdInvalidError` branch, so an invalid id lands in the generic
`Exception` branch). -/
inductive AddOutcome where
  | success
  | floodWait (seconds : Nat)
  | privacyRestricted
  | notMutualContact
  | bannedInChannel
  | blocked
  | peerFlood
  | otherError
  deriving DecidableEq, Repr

/-- Observable events of the Dispatcher: each invite attempt (with the id it
targeted and its outcome) and each sleep. -/
inductive DEvent where
  | attempt (uid : Nat) (o : AddOutcome)
  | sleep (n : Nat)
  deriving DecidableEq, Repr

/-- Mutable instance state of `MemberAdder` that the loop threads through:
the rotation index, the per-account daily counters, and the positions of the
outcome and random-number streams consumed so far. -/
structure DState where
  idx : Nat
  stats : String → Nat
  t : Nat
  r : Nat

/-- Pointwise counter increment `self.daily_stats[phone] += 1`. -/
def bump (f : String → Nat) (k : String) : String → Nat :=
  fun x => if x = k then f k + 1 else f x

/-- Increment a counter `j` times. -/
def bumpN (f : String → Nat) (k : String) (j : Nat) : String → Nat :=
  fun x => if x = k then f k + j else f x

/-- Embedding of `MemberAdder.switch_account`:
`self.current_account_index = (self.current_account_index + 1) %
len(self.config['accounts'])`. -/
def switch_account (cfg : Config) (s : DState) : DState :=
  { s with idx := (s.idx + 1) % cfg.accounts.length }

/-- The account at rotation position `i`: `self.config['accounts'][i]`. -/
def phoneAt (cfg : Config) (i : Nat) : String :=
  cfg.accounts.getD i ("")

/-- Python's `random.randint(lo, hi)`: some value of the inclusive interval
`[lo, hi]`, the choice driven by the rng stream value `r`. -/
def randint (r lo hi : Nat) : Nat :=
  lo + r % (hi - lo + 1)

/-- Embedding of `MemberAdder.add_member`: one invite attempt for one popped
candidate. Returns the success flag, the updated state, and the events
produced. On success it sleeps a random delay in
`[min_delay, max_delay]`; on `FloodWaitError` it sleeps the server-specified
seconds and returns failure; on `PeerFloodError` it rotates the account,
sleeps 60 and returns failure; the permanent per-user restrictions and any
other error just return failure. The daily counter is NOT touched here (the
caller increments it). -/
def add_member (cfg : Config) (env : Nat → AddOutcome) (rng : Nat → Nat)
    (s : DState) (u : CandidateRecord) : Bool × DState × List DEvent :=
  match env s.t with
  | .success =>
    let d := randint (rng s.r) cfg.min_delay cfg.max_delay
    (true, { s with t := s.t + 1, r := s.r + 1 },
      [.attempt u.id .success, .sleep d])
  | .floodWait w =>
    (false, { s with t := s.t + 1 }, [.attempt u.id (.floodWait w), .sleep w])
  | .peerFlood =>
    (false, { switch_account cfg s with t := s.t + 1 },
      [.attempt u.id .peerFlood, .sleep 60])
  | o => (false, { s with t := s.t + 1 }, [.attempt u.id o])

/-- Embedding of the inner dispatch loop of `MemberAdder.run`:
`while members and len(added_members) < members_to_add:` pop the front
candidate, attempt it, on success append it, increment `current_phone`'s
daily counter and checkpoint, and break once the counter reaches the daily
cap. `phone` is the local `current_phone`, fixed for the whole inner loop
even if `add_member` rotates the account index on a `PeerFloodError`. -/
def innerLoop (cfg : Config) (env : Nat → AddOutcome) (rng : Nat → Nat)
    (phone : String) (members added : List CandidateRecord) (s : DState) :
    List CandidateRecord × List CandidateRecord × DState × List DEvent :=
  match members with
  | [] => ([], added, s, [])
  | u :: rest =>
    if added.length < cfg.members_to_add then
      match add_member cfg env rng s u with
      | (true, s1, evs) =>
        let s2 := { s1 with stats := bump s1.stats phone }
        if cfg.max_adds_per_day_per_account ≤ s2.stats phone then
          (rest, added ++ [u], s2, evs)
        else
          match innerLoop cfg env rng phone rest (added ++ [u]) s2 with
          | (m3, a3, s3, evs3) => (m3, a3, s3, evs ++ evs3)
      | (false, s1, evs) =>
        if cfg.max_adds_per_day_per_account ≤ s1.stats phone then
          (rest, added, s1, evs)
        else
          match innerLoop cfg env rng phone rest added s1 with
          | (m3, a3, s3, evs3) => (m3, a3, s3, evs ++ evs3)
    else (u :: rest, added, s, [])

/-- Embedding of the outer `while` loop of `MemberAdder.run`, fuel-indexed
(`none` means the fuel ran out before the loop exited — in particular it is
returned for every fuel value when the loop diverges). Each iteration:
re-create the client from the current session file, check authorization
(rotating on failure), check the current account's daily cap (rotating when
reached), otherwise run the inner dispatch loop. `phone` is the local
`current_phone` variable: it is re-read from the rotation index only in the
two rotation branches, exactly as in the source. -/
def runLoop (cfg : Config) (env : Nat → AddOutcome) (rng : Nat → Nat)
    (auth : String → Bool) :
    Nat → List CandidateRecord → List CandidateRecord → String → DState →
    Option (List CandidateRecord × List CandidateRecord × DState × List DEvent)
  | 0, _, _, _, _ => none
  | Nat.succ fuel, members, added, phone, s =>
    if added.length < cfg.members_to_add ∧ members ≠ [] then
      if auth phone then
        if cfg.max_adds_per_day_per_account ≤ s.stats phone then
          let s' := switch_account cfg s
          runLoop cfg env rng auth fuel members added (phoneAt cfg s'.idx) s'
        else
          match innerLoop cfg env rng phone members added s with
          | (m', a', s', evs) =>
            (runLoop cfg env rng auth fuel m' a' phone s').map
              (fun r => (r.1, r.2.1, r.2.2.1, evs ++ r.2.2.2))
      else
        let s' := switch_account cfg s
        runLoop cfg env rng auth fuel members added (phoneAt cfg s'.idx) s'
    else some (added, members, s, [])

/-- The Progress Record persisted by `MemberAdder.save_progress` (the
wall-clock timestamp is not modelled). -/
structure ProgressRecord where
  added_members : List CandidateRecord
  daily_stats : String → Nat

/-- Embedding of `MemberAdder.save_progress`. -/
def save_progress (stats : String → Nat) (added : List CandidateRecord) :
    ProgressRecord :=
  { added_members := added, daily_stats := stats }

/-- Initial `MemberAdder` state: index 0, all daily counters 0. -/
def initState : DState :=
  { idx := 0, stats := fun _ => 0, t := 0, r := 0 }

/-- What a finished Dispatcher run leaves behind. -/
structure DRunResult where
  added : List CandidateRecord
  remaining : List CandidateRecord
  state : DState
  events : List DEvent
  progress : Option ProgressRecord

/-- Embedding of `MemberAdder.run`: load the members (here: passed in), abort
early — without writing any Progress Record — when the list is empty,
otherwise run the outer loop starting from account index 0 and persist a
final Progress Record. -/
def MemberAdder_run (cfg : Config) (env : Nat → AddOutcome) (rng : Nat → Nat)
    (auth : String → Bool) (fuel : Nat) (members : List CandidateRecord) :
    Option DRunResult :=
  if members = [] then
    some { added := [], remaining := [], state := initState, events := [],
           progress := none }
  else
    match runLoop cfg env rng auth fuel members [] (phoneAt cfg 0) initState with
    | none => none
    | some (added, rem, s, evs) =>
      some { added := added, remaining := rem, state := s, events := evs,
             progress := some (save_progress s.stats added) }

/-- Sum of the daily counters over a list of accounts. -/
def sumStats (accounts : List String) (f : String → Nat) : Nat :=
  (accounts.map f).sum

/-- The targeted ids of the attempt events of a Dispatcher trace, in order. -/
def attemptsOf : List DEvent → List Nat
  | [] => []
  | .attempt uid _ :: r => uid :: attemptsOf r
  | .sleep _ :: r => attemptsOf r

/-- Trace well-formedness for the dispatch loop: every successful attempt is
immediately followed by a sleep inside the configured inclusive delay
interval, and every rate-limited attempt by a sleep of the server-specified
duration. -/
def sleepAfterOK (cfg : Config) : List DEvent → Bool
  | [] => true
  | .attempt _ o :: rest =>
    (match o with
     | .floodWait w =>
       match rest with
       | .sleep d :: _ => d == w
       | _ => false
     | .success =>
       match rest with
       | .sleep d :: _ => cfg.min_delay ≤ d && d ≤ cfg.max_delay
       | _ => false
     | _ => true) && sleepAfterOK cfg rest
  | .sleep _ :: rest => sleepAfterOK cfg rest

/-- Some account within the next `b` rotation steps still has daily quota. -/
def goodWithin (cfg : Config) (s : DState) (b : Nat) : Prop :=
  ∃ k < b, s.stats (phoneAt cfg ((s.idx + k) % cfg.accounts.length)) <
    cfg.max_adds_per_day_per_account

/-! ## Concrete instances used by scenarios, counterexamples and witnesses -/

/-- A plain non-bot user with id 1 as first scraped. -/
def exUser1 : TgUser :=
  { id := 1, access_hash := 11, username := some ("first"), first_name := "A",
    last_name := "", phone := none, bot := false, deleted := false,
    verified := false, restricted := false, scam := false, fake := false,
    premium := false }

/-- A plain non-bot user with id 2. -/
def exUser2 : TgUser :=
  { id := 2, access_hash := 22, username := some ("b"), first_name := "B",
    last_name := "", phone := none, bot := false, deleted := false,
    verified := false, restricted := false, scam := false, fake := false,
    premium := false }

/-- The same user as `exUser1` (same id 1) seen again later in the pass with
changed profile fields. -/
def exUser1b : TgUser :=
  { exUser1 with access_hash := 12, username := some ("second") }

/-- A bot user, to exercise the bot filter. -/
def exBot : TgUser :=
  { id := 9, access_hash := 99, username := some ("bot"), first_name := "R",
    last_name := "", phone := none, bot := true, deleted := false,
    verified := false, restricted := false, scam := false, fake := false,
    premium := false }

/-- The duplicate-id scenario input `[{id:1,...}, {id:2,...}, {id:1,...}]`. -/
def exPass : List Sender := [.user exUser1, .user exUser2, .user exUser1b]

/-- A search environment whose query for pattern "a" is rate-limited with a
30-unit wait and whose other queries return an empty page. -/
def envFloodA : String → SearchOutcome :=
  fun p => if p = "a" then .floodWait 30 else .ok []

/-- Candidate records fed to the Dispatcher in concrete runs. -/
def mem1 : CandidateRecord := user_to_dict exUser1

def mem2 : CandidateRecord := user_to_dict exUser2

/-- A configuration whose single account has daily cap 0: its quota is
already exhausted at process start. -/
def cfgQuota0 : Config :=
  { accounts := ["alice"], group_source := "src", group_target := "dst",
    members_to_add := 1, min_delay := 5, max_delay := 5,
    max_adds_per_day_per_account := 0 }

/-- The same exhausted-quota situation for the all-success scenario of the
target-count claim. -/
def cfgQuota0b : Config :=
  { accounts := ["bob"], group_source := "src", group_target := "dst",
    members_to_add := 1, min_delay := 5, max_delay := 5,
    max_adds_per_day_per_account := 0 }

/-- A small working configuration: two accounts, cap 1 per account per day,
target 2. -/
def cfgSmall : Config :=
  { accounts := ["a1", "a2"], group_source := "src", group_target := "dst",
    members_to_add := 2, min_delay := 5, max_delay := 5,
    max_adds_per_day_per_account := 1 }

/-- A configuration for single-account witness runs: cap 10, target 1. -/
def cfgOne : Config :=
  { accounts := ["solo"], group_source := "src", group_target := "dst",
    members_to_add := 1, min_delay := 3, max_delay := 7,
    max_adds_per_day_per_account := 10 }

/-- An outcome stream whose every attempt succeeds. -/
def envSuccess : Nat → AddOutcome := fun _ => .success

/-- An outcome stream whose every attempt fails with a generic error. -/
def envErr : Nat → AddOutcome := fun _ => .otherError

/-- An outcome stream whose first attempt is rate-limited with a 30-unit
wait and whose later attempts succeed. -/
def envFlood30 : Nat → AddOutcome :=
  fun t => if t = 0 then .floodWait 30 else .success

/-- An outcome stream whose first attempt hits `PeerFloodError` and whose
later attempts succeed. -/
def envPeer : Nat → AddOutcome :=
  fun t => if t = 0 then .peerFlood else .success

/-- A fixed rng stream. -/
def rng0 : Nat → Nat := fun _ => 0

/-- Every session authorized. -/
def authAll : String → Bool := fun _ => true

/-! ## Basic lemmas about the Candidate Set dictionary -/

@[simp] theorem user_to_dict_id (u : TgUser) : (user_to_dict u).id = u.id := rfl

@[simp] theorem user_to_dict_bot (u : TgUser) : (user_to_dict u).bot = u.bot := rfl

@[simp] theorem lookupA_nil (k : Nat) : lookupA [] k = none := rfl

theorem lookupA_cons (r : CandidateRecord) (m : CandidateSet) (k : Nat) :
    lookupA (r :: m) k = if r.id = k then some r else lookupA m k := by
  by_cases h : r.id = k
  · simp only [lookupA, if_pos h]
    exact List.find?_cons_of_pos _ (by simp [h])
  · simp only [lookupA, if_neg h]
    exact List.find?_cons_of_neg _ (by simp [h])

@[simp] theorem hasKey_nil (k : Nat) : hasKey [] k = false := rfl

theorem hasKey_cons (r : CandidateRecord) (m : CandidateSet) (k : Nat) :
    hasKey (r :: m) k = (r.id == k || hasKey m k) := by
  simp [hasKey]

theorem lookupA_dictInsert_self (m : CandidateSet) (v : CandidateRecord) :
    lookupA (dictInsert m v) v.id = some v := by
  induction m with
  | nil => simp [dictInsert, lookupA_cons]
  | cons r rest ih =>
    by_cases h : r.id = v.id
    · simp [dictInsert, h, lookupA_cons]
    · simp [dictInsert, h, lookupA_cons, ih]

theorem lookupA_dictInsert_ne (m : CandidateSet) (v : CandidateRecord) (k : Nat)
    (h : k ≠ v.id) : lookupA (dictInsert m v) k = lookupA m k := by
  have h1 : v.id ≠ k := Ne.symm h
  induction m with
  | nil => simp [dictInsert, lookupA_cons, h1]
  | cons r rest ih =>
    by_cases hr : r.id = v.id
    · have h2 : r.id ≠ k := by rw [hr]; exact h1
      simp [dictInsert, hr, lookupA_cons, h1, h2]
    · simp [dictInsert, hr, lookupA_cons, ih]

theorem hasKey_dictInsert (m : CandidateSet) (v : CandidateRecord) (k : Nat) :
    hasKey (dictInsert m v) k = (v.id == k || hasKey m k) := by
  induction m with
  | nil => simp [dictInsert, hasKey_cons]
  | cons r rest ih =>
    by_cases hr : r.id = v.id
    · simp only [dictInsert, if_pos hr, hasKey_cons, hr]
      cases hv : (v.id == k) <;> simp [hasKey_cons, hv]
    · simp only [dictInsert, if_neg hr, hasKey_cons, ih]
      cases hv : (v.id == k) <;> cases hk : (r.id == k) <;> simp [hv, hk]

theorem length_dictInsert_of_hasKey (m : CandidateSet) (v : CandidateRecord)
    (h : hasKey m v.id = true) : (dictInsert m v).length = m.length := by
  induction m with
  | nil => simp [hasKey] at h
  | cons r rest ih =>
    by_cases hr : r.id = v.id
    · simp [dictInsert, hr]
    · rw [hasKey_cons] at h
      simp [hr] at h
      simp [dictInsert, hr, ih h]

theorem mem_dictInsert (m : CandidateSet) (v r : CandidateRecord)
    (h : r ∈ dictInsert m v) : r = v ∨ r ∈ m := by
  induction m with
  | nil => simp [dictInsert] at h; exact Or.inl h
  | cons x rest ih =>
    by_cases hx : x.id = v.id
    · simp [dictInsert, hx] at h
      rcases h with h | h
      · exact Or.inl h
      · exact Or.inr (List.mem_cons_of_mem _ h)
    · simp [dictInsert, hx] at h
      rcases h with h | h
      · exact Or.inr (by simp [h])
      · rcases ih h with h' | h'
        · exact Or.inl h'
        · exact Or.inr (List.mem_cons_of_mem _ h')

/-! ## Lemmas about the merge passes -/

theorem mergeSenders_nil (keep : TgUser → Bool) (m : CandidateSet) :
    mergeSenders keep m [] = m := rfl

theorem mergeSenders_cons (keep : TgUser → Bool) (m : CandidateSet)
    (x : Sender) (xs : List Sender) :
    mergeSenders keep m (x :: xs) =
      mergeSenders keep
        (match x with
         | .user u => if keep u then dictInsert m (user_to_dict u) else m
         | _ => m) xs := rfl

/-- Lookup after a merge pass: the stored record under `k` is the dictionary
of the LAST kept user with id `k` in the pass input (Python dict assignment
overwrites), falling back to the prior contents. -/
theorem lookupA_mergeSenders (keep : TgUser → Bool) (xs : List Sender) :
    ∀ (m : CandidateSet) (k : Nat),
      lookupA (mergeSenders keep m xs) k =
        (lastIns keep xs k).elim (lookupA m k) (fun u => some (user_to_dict u)) := by
  induction xs with
  | nil => intro m k; simp [mergeSenders_nil, lastIns]
  | cons x rest ih =>
    intro m k
    rw [mergeSenders_cons]
    rw [ih]
    cases hl : lastIns keep rest k with
    | some u => simp [lastIns, hl]
    | none =>
      simp only [lastIns, hl, Option.elim]
      cases x with
      | user u =>
        by_cases hk : keep u
        · by_cases hid : u.id = k
          · simp [hk, hid]
            rw [← hid, ← user_to_dict_id u]
            exact lookupA_dictInsert_self m (user_to_dict u)
          · simp [hk, hid]
            exact lookupA_dictInsert_ne m (user_to_dict u) k
              (by simpa using Ne.symm hid)
        · simp [hk]
      | channel cid => simp
      | nosender => simp

/-- Key membership after a merge pass. -/
theorem hasKey_mergeSenders (keep : TgUser → Bool) (xs : List Sender) :
    ∀ (m : CandidateSet) (k : Nat),
      hasKey (mergeSenders keep m xs) k =
        ((lastIns keep xs k).isSome || hasKey m k) := by
  induction xs with
  | nil => intro m k; simp [mergeSenders_nil, lastIns]
  | cons x rest ih =>
    intro m k
    rw [mergeSenders_cons]
    rw [ih]
    cases hl : lastIns keep rest k with
    | some u => simp [lastIns, hl]
    | none =>
      simp only [lastIns, hl]
      cases x with
      | user u =>
        by_cases hk : keep u
        · by_cases hid : u.id = k
          · simp [hk, hid, hasKey_dictInsert]
          · simp [hk, hid, hasKey_dictInsert]
        · simp [hk]
      | channel cid => simp
      | nosender => simp

theorem hasKey_mono_dictInsert (m : CandidateSet) (v : CandidateRecord) (k : Nat)
    (h : hasKey m k = true) : hasKey (dictInsert m v) k = true := by
  rw [hasKey_dictInsert]
  simp [h]

/-- If every key the pass would insert is already present, the pass leaves
the cardinality unchanged. -/
theorem length_mergeSenders_of_keys (keep : TgUser → Bool) (xs : List Sender) :
    ∀ (m : CandidateSet),
      (∀ k, (lastIns keep xs k).isSome → hasKey m k = true) →
      (mergeSenders keep m xs).length = m.length := by
  induction xs with
  | nil => intro m _; simp [mergeSenders_nil]
  | cons x rest ih =>
    intro m hpre
    rw [mergeSenders_cons]
    cases x with
    | user u =>
      by_cases hk : keep u
      · simp only [hk, if_true]
        have hmem : hasKey m u.id = true := by
          apply hpre u.id
          simp only [lastIns]
          cases hl : lastIns keep rest u.id with
          | some w => simp
          | none => simp [hk]
        rw [ih]
        · exact length_dictInsert_of_hasKey m (user_to_dict u) (by simpa using hmem)
        · intro k hins
          apply hasKey_mono_dictInsert
          apply hpre
          simp only [lastIns]
          cases hl : lastIns keep rest k with
          | some w => simp
          | none => simp_all
      · simp only [hk, if_false]
        apply ih
        intro k hins
        apply hpre
        simp only [lastIns]
        cases hl : lastIns keep rest k with
        | some w => simp
        | none => simp_all
    | channel cid =>
      apply ih
      intro k hins
      apply hpre
      simp only [lastIns]
      cases hl : lastIns keep rest k with
      | some w => simp
      | none => simp_all
    | nosender =>
      apply ih
      intro k hins
      apply hpre
      simp only [lastIns]
      cases hl : lastIns keep rest k with
      | some w => simp
      | none => simp_all

/-- Processing the same pass input a second time changes neither the
cardinality nor any stored record. -/
theorem mergeSenders_idem (keep : TgUser → Bool) (xs : List Sender)
    (m : CandidateSet) :
    (mergeSenders keep (mergeSenders keep m xs) xs).length =
      (mergeSenders keep m xs).length ∧
    ∀ k, lookupA (mergeSenders keep (mergeSenders keep m xs) xs) k =
      lookupA (mergeSenders keep m xs) k := by
  constructor
  · apply length_mergeSenders_of_keys
    intro k hins
    rw [hasKey_mergeSenders]
    simp [hins]
  · intro k
    rw [lookupA_mergeSenders, lookupA_mergeSenders]
    cases hl : lastIns keep xs k with
    | some u => simp
    | none => simp [lookupA_mergeSenders, hl]

/-! ## Claim C1: merge is last-write-wins, not first-write-wins -/

/-- C1 counterexample: on the scenario input `[{id:1}, {id:2}, {id:1}]` the
Candidate Set does keep exactly 2 entries, but the record stored under id 1
is the LAST record inserted for id 1, not the first: the Python dict
assignment `self.all_members[id] = ...` overwrites an existing entry, so
first-write-wins fails. -/
theorem claim_C1_cex :
    (get_members_from_messages exPass []).length = 2 ∧
    lookupA (get_members_from_messages exPass []) 1 ≠ some (user_to_dict exUser1) ∧
    lookupA (get_members_from_messages exPass []) 1 = some (user_to_dict exUser1b) := by
  decide

/-- C1 (amended): merging retrieval passes into the Candidate Set is
last-write-wins: after a pass, the record stored under any id equals the
LAST record inserted for that id (falling back to the prior contents), so
for the input `[{id:1,...}, {id:2,...}, {id:1,...}]` the persisted set has
exactly 2 entries and id 1 keeps its last-seen field values. -/
theorem claim_C1_amended (xs : List Sender) (m : CandidateSet) (k : Nat) :
    lookupA (get_members_from_messages xs m) k =
      (lastIns keepMR xs k).elim (lookupA m k) (fun u => some (user_to_dict u)) ∧
    ((get_members_from_messages exPass []).length = 2 ∧
     lookupA (get_members_from_messages exPass []) 1 = some (user_to_dict exUser1b) ∧
     lookupA (get_members_from_messages exPass []) 2 = some (user_to_dict exUser2)) :=
  ⟨lookupA_mergeSenders keepMR xs m k, by decide⟩

/-! ## Claim C9: merging the same pass twice is idempotent -/

/-- C9: processing the same source-pass data a second time leaves both the
Candidate Set's cardinality and the record stored under every id unchanged,
for the message-history pass and for the recent-participants pass. -/
theorem claim_C9_idempotent (xs : List Sender) (m : CandidateSet) :
    ((get_members_from_messages xs (get_members_from_messages xs m)).length =
       (get_members_from_messages xs m).length ∧
     ∀ k, lookupA (get_members_from_messages xs (get_members_from_messages xs m)) k =
       lookupA (get_members_from_messages xs m) k) ∧
    ((get_members_from_recent xs (get_members_from_recent xs m)).length =
       (get_members_from_recent xs m).length ∧
     ∀ k, lookupA (get_members_from_recent xs (get_members_from_recent xs m)) k =
       lookupA (get_members_from_recent xs m) k) :=
  ⟨mergeSenders_idem keepMR xs m, mergeSenders_idem keepMR xs m⟩

/-! ## Claim C7: no bots in the Candidate Set -/

theorem noBot_dictInsert (m : CandidateSet) (v : CandidateRecord)
    (hm : noBot m) (hv : v.bot = false) : noBot (dictInsert m v) := by
  intro r hr
  rcases mem_dictInsert m v r hr with h | h
  · rw [h]; exact hv
  · exact hm r h

theorem noBot_mergeSenders (keep : TgUser → Bool)
    (hkeep : ∀ u, keep u = true → u.bot = false) (xs : List Sender) :
    ∀ m : CandidateSet, noBot m → noBot (mergeSenders keep m xs) := by
  induction xs with
  | nil => intro m hm; simpa [mergeSenders_nil] using hm
  | cons x rest ih =>
    intro m hm
    rw [mergeSenders_cons]
    cases x with
    | user u =>
      by_cases hk : keep u
      · simp only [hk, if_true]
        exact ih _ (noBot_dictInsert m (user_to_dict u) hm (by simpa using hkeep u hk))
      · simp only [hk, if_false]
        exact ih m hm
    | channel cid => exact ih m hm
    | nosender => exact ih m hm

theorem keepMR_no_bot (u : TgUser) (h : keepMR u = true) : u.bot = false := by
  simp [keepMR] at h
  exact h.1

theorem keepReact_no_bot (u : TgUser) (h : keepReact u = true) : u.bot = false := by
  simpa [keepReact] using h

theorem noBot_reactions (fetches : List (Option (List Sender))) :
    ∀ m : CandidateSet, noBot m → noBot (get_members_from_reactions fetches m) := by
  induction fetches with
  | nil => intro m hm; exact hm
  | cons f rest ih =>
    intro m hm
    cases f with
    | none => exact ih m hm
    | some peers =>
      exact ih _ (noBot_mergeSenders keepReact keepReact_no_bot peers m hm)

theorem noBot_searchFold (env : String → SearchOutcome) (ps : List String) :
    ∀ acc : CandidateSet × List CEvent, noBot acc.1 →
      noBot (ps.foldl (searchStep env) acc).1 := by
  induction ps with
  | nil => intro acc h; exact h
  | cons p rest ih =>
    intro acc h
    rw [List.foldl_cons]
    apply ih
    cases hp : env p with
    | ok users =>
      simpa [searchStep, hp] using
        noBot_mergeSenders keepMR keepMR_no_bot users acc.1 h
    | floodWait s => simpa [searchStep, hp] using h
    | err => simpa [searchStep, hp] using h

/-- C7: for every run of the Collector — all four retrieval strategies
applied in source order starting from the empty Candidate Set — no entry of
the resulting set has `bot = true`: every strategy filters bot users before
insertion. -/
theorem claim_C7_no_bots (recentUsers msgSenders : List Sender)
    (reactionFetches : List (Option (List Sender)))
    (searchEnv : String → SearchOutcome) (r : CandidateRecord)
    (hr : r ∈ (scrapeAll recentUsers msgSenders reactionFetches searchEnv).1) :
    r.bot = false := by
  have h0 : noBot ([] : CandidateSet) := by intro x hx; simp at hx
  have h1 := noBot_mergeSenders keepMR keepMR_no_bot recentUsers [] h0
  have h2 := noBot_mergeSenders keepMR keepMR_no_bot msgSenders _ h1
  have h3 := noBot_reactions reactionFetches _ h2
  have h4 := noBot_searchFold searchEnv search_patterns (_, ([] : List CEvent)) h3
  exact h4 r hr

/-- C7 witness: a concrete scrape containing a non-bot and a bot user; the
non-bot record is in the result, and the theorem evaluates its flag. -/
theorem claim_C7_no_bots_witness :
    user_to_dict exUser1 ∈
      (scrapeAll [.user exUser1, .user exBot] [] [] (fun _ => .ok [])).1 ∧
    (user_to_dict exUser1).bot = false :=
  ⟨by decide, claim_C7_no_bots [.user exUser1, .user exBot] [] [] (fun _ => .ok []) (user_to_dict exUser1) (by decide)⟩

/-! ## Claim C6: rate-limited search pattern is skipped, not retried -/

theorem bindConsEq {α β : Type} (x : α) (xs : List α) (f : α → List β) :
    (x :: xs).bind f = f x ++ xs.bind f := rfl

theorem queriesOf_append (xs ys : List CEvent) :
    queriesOf (xs ++ ys) = queriesOf xs ++ queriesOf ys := by
  induction xs with
  | nil => rfl
  | cons x rest ih => cases x <;> simp [queriesOf, ih]

theorem searchFold_snd (env : String → SearchOutcome) (ps : List String) :
    ∀ (m : CandidateSet) (evs : List CEvent),
      (ps.foldl (searchStep env) (m, evs)).2 = evs ++ ps.bind (blockOf env) := by
  induction ps with
  | nil => intro m evs; simp
  | cons p rest ih =>
    intro m evs
    rw [List.foldl_cons, bindConsEq]
    cases hp : env p <;>
      simp [searchStep, hp, blockOf, ih, List.append_assoc]

theorem queriesOf_bind (env : String → SearchOutcome) (ps : List String) :
    queriesOf (ps.bind (blockOf env)) = ps := by
  induction ps with
  | nil => rfl
  | cons p rest ih =>
    rw [bindConsEq, queriesOf_append, ih]
    cases hp : env p <;> simp [blockOf, hp, queriesOf]

theorem searchOK_bind (env : String → SearchOutcome) (ps : List String) :
    searchOK env (ps.bind (blockOf env)) = true := by
  induction ps with
  | nil => rfl
  | cons p rest ih =>
    rw [bindConsEq]
    cases hp : env p <;> simp [blockOf, hp, searchOK, ih]

theorem searchOK_get (env : String → SearchOutcome) :
    ∀ evs : List CEvent, searchOK env evs = true →
      ∀ i p w, evs.get? i = some (.query p) → env p = .floodWait w →
        evs.get? (i + 1) = some (.sleep w) := by
  intro evs
  induction evs with
  | nil => intro _ i p w h _; simp at h
  | cons e rest ih =>
    intro hOK i p w hq hp
    cases i with
    | zero =>
      simp at hq
      subst hq
      simp only [searchOK, hp, Bool.and_eq_true] at hOK
      cases rest with
      | nil => simp at hOK
      | cons r rest2 =>
        cases r with
        | query q => simp at hOK
        | sleep d =>
          have : d = w := by simpa using hOK.1
          simp [this]
    | succ j =>
      simp only [List.get?_cons_succ] at hq ⊢
      apply ih _ j p w hq hp
      cases e with
      | query q =>
        simp only [searchOK, Bool.and_eq_true] at hOK
        exact hOK.2
      | sleep n => simpa [searchOK] using hOK

/-- C6 counterexample: with pattern "a" rate-limited (30-unit wait) and every
other query succeeding, the trace shows pattern "a" queried exactly once —
after the 30-unit sleep the loop's next query is pattern "e", the NEXT
pattern of the list: the rate-limited pattern is skipped, not retried. -/
theorem claim_C6_cex :
    (queriesOf (get_members_by_search envFloodA []).2).count ("a") = 1 ∧
    (get_members_by_search envFloodA []).2.get? 1 = some (.sleep 30) ∧
    (get_members_by_search envFloodA []).2.get? 2 = some (.query ("e")) := by
  decide

/-- C6 (amended): a rate-limit signal on a pattern's query causes the
Collector to sleep for the server-specified duration and then proceed to the
NEXT pattern of the list (the rate-limited pattern itself is skipped, not
retried), without aborting the run: the queried patterns of any search run
are exactly the fixed pattern list, each queried once in order, and every
rate-limited query is immediately followed by the server-specified sleep. -/
theorem claim_C6_amended (env : String → SearchOutcome) (m : CandidateSet) :
    queriesOf (get_members_by_search env m).2 = search_patterns ∧
    ∀ i p w, (get_members_by_search env m).2.get? i = some (.query p) →
      env p = .floodWait w →
      (get_members_by_search env m).2.get? (i + 1) = some (.sleep w) := by
  have h2 : (get_members_by_search env m).2 = search_patterns.bind (blockOf env) := by
    rw [get_members_by_search, searchFold_snd]
    simp
  constructor
  · rw [h2, queriesOf_bind]
  · rw [h2]
    exact searchOK_get env _ (searchOK_bind env search_patterns)

/-- C6 witness: the amended theorem applied to the concrete rate-limited
environment at the first query. -/
theorem claim_C6_amended_witness :
    ((get_members_by_search envFloodA []).2.get? 0 = some (.query ("a")) ∧
     envFloodA ("a") = .floodWait 30) ∧
    (get_members_by_search envFloodA []).2.get? 1 = some (.sleep 30) :=
  ⟨⟨by decide, by decide⟩,
   (claim_C6_amended envFloodA []).2 0 ("a") 30 (by decide) (by decide)⟩

/-! ## Basic facts about one invite attempt -/

theorem add_member_success_eq (cfg : Config) (env : Nat → AddOutcome)
    (rng : Nat → Nat) (s : DState) (u : CandidateRecord)
    (h : env s.t = .success) :
    add_member cfg env rng s u =
      (true, { s with t := s.t + 1, r := s.r + 1 },
       [.attempt u.id .success,
        .sleep (randint (rng s.r) cfg.min_delay cfg.max_delay)]) := by
  simp [add_member, h]

theorem add_member_floodWait_eq (cfg : Config) (env : Nat → AddOutcome)
    (rng : Nat → Nat) (s : DState) (u : CandidateRecord) (w : Nat)
    (h : env s.t = .floodWait w) :
    add_member cfg env rng s u =
      (false, { s with t := s.t + 1 },
       [.attempt u.id (.floodWait w), .sleep w]) := by
  simp [add_member, h]

/-- The daily counter is never touched by `add_member` itself: the increment
happens in the caller. -/
theorem add_member_stats (cfg : Config) (env : Nat → AddOutcome)
    (rng : Nat → Nat) (s : DState) (u : CandidateRecord) :
    (add_member cfg env rng s u).2.1.stats = s.stats := by
  cases h : env s.t <;> simp [add_member, h, switch_account]

theorem add_member_success_mem (cfg : Config) (env : Nat → AddOutcome)
    (rng : Nat → Nat) (s : DState) (u : CandidateRecord)
    (h : (add_member cfg env rng s u).1 = true) :
    DEvent.attempt u.id .success ∈ (add_member cfg env rng s u).2.2 := by
  cases ho : env s.t <;> simp [add_member, ho] at h ⊢

/-! ## Claim C10: a mid-loop rotation changes only the index -/

theorem bump_ne (f : String → Nat) (k p : String) (h : p ≠ k) :
    bump f k p = f p := by
  simp [bump, h]

theorem bump_self (f : String → Nat) (k : String) : bump f k k = f k + 1 := by
  simp [bump]

/-- Frame property of the inner dispatch loop: whatever the attempt outcomes
(including `PeerFloodError` rotations), the only daily counter the loop
touches is the one of `phone`, the account that was current when the inner
loop was entered; its increments match the records appended to the added
set. -/
theorem innerLoop_stats (cfg : Config) (env : Nat → AddOutcome)
    (rng : Nat → Nat) (phone : String) :
    ∀ (members added : List CandidateRecord) (s : DState),
      (∀ p, p ≠ phone →
        (innerLoop cfg env rng phone members added s).2.2.1.stats p = s.stats p) ∧
      (innerLoop cfg env rng phone members added s).2.2.1.stats phone +
          added.length =
        s.stats phone + (innerLoop cfg env rng phone members added s).2.1.length := by
  intro members
  induction members with
  | nil => intro added s; simp [innerLoop]
  | cons u rest ih =>
    intro added s
    by_cases htar : added.length < cfg.members_to_add
    · rcases hadd : add_member cfg env rng s u with ⟨ok, s1, evs⟩
      have hstats : s1.stats = s.stats := by
        have h := add_member_stats cfg env rng s u
        rw [hadd] at h
        exact h
      cases ok with
      | true =>
        by_cases hq : cfg.max_adds_per_day_per_account ≤
            bump s1.stats phone phone
        · simp only [innerLoop, if_pos htar, hadd]
          rw [if_pos hq]
          constructor
          · intro p hp
            simp [bump_ne _ _ _ hp, hstats]
          · simp [bump_self, hstats]
            omega
        · simp only [innerLoop, if_pos htar, hadd]
          rw [if_neg hq]
          rcases hrec : innerLoop cfg env rng phone rest (added ++ [u])
              { s1 with stats := bump s1.stats phone } with ⟨m3, a3, s3, evs3⟩
          have hih := ih (added ++ [u]) { s1 with stats := bump s1.stats phone }
          rw [hrec] at hih
          simp only [hrec]
          constructor
          · intro p hp
            have hfr := hih.1 p hp
            simp only at hfr
            rw [hfr]
            simp [bump_ne _ _ _ hp, hstats]
          · have hct := hih.2
            simp only [List.length_append, List.length_cons,
              List.length_nil] at hct ⊢
            simp [bump_self, hstats] at hct
            omega
      | false =>
        by_cases hq : cfg.max_adds_per_day_per_account ≤ s1.stats phone
        · simp only [innerLoop, if_pos htar, hadd]
          rw [if_pos hq]
          simp [hstats]
        · simp only [innerLoop, if_pos htar, hadd]
          rw [if_neg hq]
          rcases hrec : innerLoop cfg env rng phone rest added s1 with
            ⟨m3, a3, s3, evs3⟩
          have hih := ih added s1
          rw [hrec] at hih
          simp only [hrec]
          constructor
          · intro p hp
            have hfr := hih.1 p hp
            simp only at hfr
            rw [hfr, hstats]
          · have hct := hih.2
            simp only at hct
            rw [← hstats]
            exact hct
    · simp [innerLoop, if_neg htar]

/-- C10: when a `PeerFloodError` rotates the account mid-loop, only the
rotation index changes — `add_member` leaves the daily counters, the added
set and the candidate queue untouched and just advances the index by one
modulo the account count — and the rest of the inner loop keeps charging the
daily counter of the account that was current when the loop was entered
(the local `phone`), which is re-read from the index only when the outer
loop restarts. -/
theorem claim_C10_frame :
    (∀ (cfg : Config) (env : Nat → AddOutcome) (rng : Nat → Nat)
       (s : DState) (u : CandidateRecord), env s.t = .peerFlood →
       add_member cfg env rng s u =
         (false,
          { s with idx := (s.idx + 1) % cfg.accounts.length, t := s.t + 1 },
          [.attempt u.id .peerFlood, .sleep 60])) ∧
    (∀ (cfg : Config) (env : Nat → AddOutcome) (rng : Nat → Nat)
       (phone : String) (members added : List CandidateRecord) (s : DState),
       (∀ p, p ≠ phone →
         (innerLoop cfg env rng phone members added s).2.2.1.stats p =
           s.stats p) ∧
       (innerLoop cfg env rng phone members added s).2.2.1.stats phone +
           added.length =
         s.stats phone +
           (innerLoop cfg env rng phone members added s).2.1.length) := by
  constructor
  · intro cfg env rng s u h
    simp [add_member, h, switch_account]
  · intro cfg env rng phone members added s
    exact innerLoop_stats cfg env rng phone members added s

/-- C10 witness: a `PeerFloodError` on the first attempt of a concrete inner
loop rotates the index, yet the counter of an unrelated account is
untouched. -/
theorem claim_C10_frame_witness :
    (envPeer initState.t = .peerFlood ∧
     add_member cfgSmall envPeer rng0 initState mem1 =
       (false,
        { initState with
            idx := (initState.idx + 1) % cfgSmall.accounts.length,
            t := initState.t + 1 },
        [.attempt mem1.id .peerFlood, .sleep 60])) ∧
    ((("zz") : String) ≠ ("a1") ∧
     (innerLoop cfgSmall envPeer rng0 ("a1") [mem1] [] initState).2.2.1.stats ("zz") =
       initState.stats ("zz")) :=
  ⟨⟨by decide, claim_C10_frame.1 cfgSmall envPeer rng0 initState mem1 (by decide)⟩,
   ⟨by decide,
    (claim_C10_frame.2 cfgSmall envPeer rng0 ("a1") [mem1] [] initState).1 ("zz")
      (by decide)⟩⟩

/-! ## Claim C4: at most Q successes per account, strict round-robin -/

/-- If the inner loop is entered below the daily cap, the active account's
counter never exceeds the cap: the loop breaks as soon as the counter
reaches it. -/
theorem innerLoop_stats_le (cfg : Config) (env : Nat → AddOutcome)
    (rng : Nat → Nat) (phone : String) :
    ∀ (members added : List CandidateRecord) (s : DState),
      s.stats phone < cfg.max_adds_per_day_per_account →
      (innerLoop cfg env rng phone members added s).2.2.1.stats phone ≤
        cfg.max_adds_per_day_per_account := by
  intro members
  induction members with
  | nil => intro added s h; simp [innerLoop]; omega
  | cons u rest ih =>
    intro added s h
    by_cases htar : added.length < cfg.members_to_add
    · rcases hadd : add_member cfg env rng s u with ⟨ok, s1, evs⟩
      have hstats : s1.stats = s.stats := by
        have hh := add_member_stats cfg env rng s u
        rw [hadd] at hh
        exact hh
      cases ok with
      | true =>
        by_cases hq : cfg.max_adds_per_day_per_account ≤
            bump s1.stats phone phone
        · simp only [innerLoop, if_pos htar, hadd]
          rw [if_pos hq]
          simp [bump_self, hstats]
          omega
        · simp only [innerLoop, if_pos htar, hadd]
          rw [if_neg hq]
          rcases hrec : innerLoop cfg env rng phone rest (added ++ [u])
              { s1 with stats := bump s1.stats phone } with ⟨m3, a3, s3, evs3⟩
          have hih := ih (added ++ [u]) { s1 with stats := bump s1.stats phone }
            (by simpa using Nat.lt_of_not_le hq)
          rw [hrec] at hih
          simpa using hih
      | false =>
        by_cases hq : cfg.max_adds_per_day_per_account ≤ s1.stats phone
        · simp only [innerLoop, if_pos htar, hadd]
          rw [if_pos hq]
          simp [hstats]
          omega
        · simp only [innerLoop, if_pos htar, hadd]
          rw [if_neg hq]
          rcases hrec : innerLoop cfg env rng phone rest added s1 with
            ⟨m3, a3, s3, evs3⟩
          have hih := ih added s1 (by rw [hstats]; exact h)
          rw [hrec] at hih
          simpa using hih
    · simp [innerLoop, if_neg htar]
      omega

/-- The outer loop preserves the daily-cap invariant on every account. -/
theorem runLoop_stats_le (cfg : Config) (env : Nat → AddOutcome)
    (rng : Nat → Nat) (auth : String → Bool) :
    ∀ (fuel : Nat) (members added : List CandidateRecord) (phone : String)
      (s : DState)
      (res : List CandidateRecord × List CandidateRecord × DState × List DEvent),
      runLoop cfg env rng auth fuel members added phone s = some res →
      (∀ p, s.stats p ≤ cfg.max_adds_per_day_per_account) →
      ∀ p, res.2.2.1.stats p ≤ cfg.max_adds_per_day_per_account := by
  intro fuel
  induction fuel with
  | zero => intro members added phone s res h; simp [runLoop] at h
  | succ n ih =>
    intro members added phone s res hrun hinv
    by_cases hg : added.length < cfg.members_to_add ∧ members ≠ []
    · by_cases hauth : auth phone = true
      · by_cases hq : cfg.max_adds_per_day_per_account ≤ s.stats phone
        · have hstep : runLoop cfg env rng auth (n + 1) members added phone s =
              runLoop cfg env rng auth n members added
                (phoneAt cfg ((switch_account cfg s).idx)) (switch_account cfg s) := by
            simp [runLoop, hg, hauth, hq]
          rw [hstep] at hrun
          exact ih members added _ _ res hrun
            (by intro q; simpa [switch_account] using hinv q)
        · rcases hin : innerLoop cfg env rng phone members added s with
            ⟨m', a', s', evs⟩
          have hstep : runLoop cfg env rng auth (n + 1) members added phone s =
              (runLoop cfg env rng auth n m' a' phone s').map
                (fun r => (r.1, r.2.1, r.2.2.1, evs ++ r.2.2.2)) := by
            simp [runLoop, hg, hauth, hq, hin]
          rw [hstep] at hrun
          rcases hmap : runLoop cfg env rng auth n m' a' phone s' with _ | r0
          · rw [hmap] at hrun
            simp at hrun
          · rw [hmap] at hrun
            have hrun2 : (r0.1, r0.2.1, r0.2.2.1, evs ++ r0.2.2.2) = res :=
              Option.some.inj hrun
            have hs' : ∀ q, s'.stats q ≤ cfg.max_adds_per_day_per_account := by
              intro q
              by_cases hqq : q = phone
              · rw [hqq]
                have hle := innerLoop_stats_le cfg env rng phone members added s
                  (Nat.lt_of_not_le hq)
                rw [hin] at hle
                exact hle
              · have hfr := (innerLoop_stats cfg env rng phone members added s).1
                  q hqq
                rw [hin] at hfr
                simp only at hfr
                rw [hfr]
                exact hinv q
            intro p
            rw [← hrun2]
            exact ih m' a' phone s' r0 hmap hs' p
      · have hstep : runLoop cfg env rng auth (n + 1) members added phone s =
            runLoop cfg env rng auth n members added
              (phoneAt cfg ((switch_account cfg s).idx)) (switch_account cfg s) := by
          simp [runLoop, hg, hauth]
        rw [hstep] at hrun
        exact ih members added _ _ res hrun
          (by intro q; simpa [switch_account] using hinv q)
    · have hstep : runLoop cfg env rng auth (n + 1) members added phone s =
          some (added, members, s, []) := by
        simp [runLoop, hg]
      rw [hstep] at hrun
      simp only [Option.some.injEq] at hrun
      intro p
      rw [← hrun]
      exact hinv p

/-- C4: rotation is strictly round-robin — `switch_account` advances the
current index by exactly one modulo the number of configured accounts
(wrapping to 0 after the last) and touches nothing else — and on any
terminating Dispatcher run every account's daily counter of successful
additions stays at or below the configured per-account daily cap. -/
theorem claim_C4_quota_roundrobin :
    (∀ (cfg : Config) (s : DState),
       (switch_account cfg s).idx = (s.idx + 1) % cfg.accounts.length ∧
       (switch_account cfg s).stats = s.stats) ∧
    (∀ (cfg : Config) (env : Nat → AddOutcome) (rng : Nat → Nat)
       (auth : String → Bool) (fuel : Nat) (members : List CandidateRecord)
       (res : DRunResult),
       MemberAdder_run cfg env rng auth fuel members = some res →
       ∀ p, res.state.stats p ≤ cfg.max_adds_per_day_per_account) := by
  constructor
  · intro cfg s
    exact ⟨rfl, rfl⟩
  · intro cfg env rng auth fuel members res hrun p
    by_cases hm : members = []
    · simp only [MemberAdder_run, if_pos hm, Option.some.injEq] at hrun
      rw [← hrun]
      simp [initState]
    · simp only [MemberAdder_run, if_neg hm] at hrun
      rcases hloop : runLoop cfg env rng auth fuel members [] (phoneAt cfg 0)
          initState with _ | r0
      · rw [hloop] at hrun
        simp at hrun
      · rw [hloop] at hrun
        rcases r0 with ⟨a0, m0, s0, e0⟩
        simp only [Option.some.injEq] at hrun
        have hst := runLoop_stats_le cfg env rng auth fuel members []
          (phoneAt cfg 0) initState (a0, m0, s0, e0) hloop
          (by intro q; simp [initState]) p
        rw [← hrun]
        exact hst

/-- C4 witness: a concrete two-account run stays within the cap of 1. -/
theorem claim_C4_quota_roundrobin_witness :
    ∃ res, MemberAdder_run cfgSmall envSuccess rng0 authAll 5 [mem1, mem2] =
        some res ∧
      res.state.stats ("a1") ≤ cfgSmall.max_adds_per_day_per_account :=
  ⟨(MemberAdder_run cfgSmall envSuccess rng0 authAll 5 [mem1, mem2]).get (by rfl),
   (Option.some_get _).symm,
   claim_C4_quota_roundrobin.2 cfgSmall envSuccess rng0 authAll 5 [mem1, mem2]
     _ (Option.some_get _).symm ("a1")⟩

/-! ## Claims C8 and C5: sleeps after successful and rate-limited attempts -/

theorem randint_ge (r lo hi : Nat) : lo ≤ randint r lo hi :=
  Nat.le_add_right lo _

theorem randint_le (r lo hi : Nat) (h : lo ≤ hi) : randint r lo hi ≤ hi := by
  have hm : r % (hi - lo + 1) < hi - lo + 1 := Nat.mod_lt _ (Nat.succ_pos _)
  simp only [randint]
  omega

theorem randint_eq_of_eq (r v : Nat) : randint r v v = v := by
  simp [randint, Nat.mod_one]

theorem sleepAfterOK_append (cfg : Config) :
    ∀ xs ys : List DEvent, sleepAfterOK cfg xs = true →
      sleepAfterOK cfg ys = true → sleepAfterOK cfg (xs ++ ys) = true := by
  intro xs
  induction xs with
  | nil => intro ys _ hy; simpa using hy
  | cons e rest ih =>
    intro ys hx hy
    cases e with
    | sleep n =>
      simp only [List.cons_append, sleepAfterOK] at hx ⊢
      exact ih ys hx hy
    | attempt uid o =>
      simp only [sleepAfterOK, Bool.and_eq_true] at hx
      obtain ⟨hcond, hrest⟩ := hx
      simp only [List.cons_append, sleepAfterOK, Bool.and_eq_true]
      refine ⟨?_, ih ys hrest hy⟩
      cases o with
      | floodWait w =>
        cases rest with
        | nil => simp at hcond
        | cons r2 rest2 =>
          cases r2 with
          | sleep d => simpa using hcond
          | attempt a b => simp at hcond
      | success =>
        cases rest with
        | nil => simp at hcond
        | cons r2 rest2 =>
          cases r2 with
          | sleep d => simpa using hcond
          | attempt a b => simp at hcond
      | privacyRestricted => rfl
      | notMutualContact => rfl
      | bannedInChannel => rfl
      | blocked => rfl
      | peerFlood => rfl
      | otherError => rfl

theorem sleepAfterOK_add_member (cfg : Config) (env : Nat → AddOutcome)
    (rng : Nat → Nat) (s : DState) (u : CandidateRecord)
    (hmm : cfg.min_delay ≤ cfg.max_delay) :
    sleepAfterOK cfg (add_member cfg env rng s u).2.2 = true := by
  cases h : env s.t with
  | success =>
    simp [add_member, h, sleepAfterOK, randint_ge,
      randint_le (rng s.r) cfg.min_delay cfg.max_delay hmm]
  | floodWait w => simp [add_member, h, sleepAfterOK]
  | privacyRestricted => simp [add_member, h, sleepAfterOK]
  | notMutualContact => simp [add_member, h, sleepAfterOK]
  | bannedInChannel => simp [add_member, h, sleepAfterOK]
  | blocked => simp [add_member, h, sleepAfterOK]
  | peerFlood => simp [add_member, h, sleepAfterOK]
  | otherError => simp [add_member, h, sleepAfterOK]

theorem sleepAfterOK_innerLoop (cfg : Config) (env : Nat → AddOutcome)
    (rng : Nat → Nat) (phone : String)
    (hmm : cfg.min_delay ≤ cfg.max_delay) :
    ∀ (members added : List CandidateRecord) (s : DState),
      sleepAfterOK cfg (innerLoop cfg env rng phone members added s).2.2.2 =
        true := by
  intro members
  induction members with
  | nil => intro added s; simp [innerLoop, sleepAfterOK]
  | cons u rest ih =>
    intro added s
    by_cases htar : added.length < cfg.members_to_add
    · rcases hadd : add_member cfg env rng s u with ⟨ok, s1, evs⟩
      have hevs : sleepAfterOK cfg evs = true := by
        have hh := sleepAfterOK_add_member cfg env rng s u hmm
        rw [hadd] at hh
        exact hh
      cases ok with
      | true =>
        by_cases hq : cfg.max_adds_per_day_per_account ≤
            bump s1.stats phone phone
        · simp only [innerLoop, if_pos htar, hadd]
          rw [if_pos hq]
          exact hevs
        · simp only [innerLoop, if_pos htar, hadd]
          rw [if_neg hq]
          rcases hrec : innerLoop cfg env rng phone rest (added ++ [u])
              { s1 with stats := bump s1.stats phone } with ⟨m3, a3, s3, evs3⟩
          have hih := ih (added ++ [u]) { s1 with stats := bump s1.stats phone }
          rw [hrec] at hih
          exact sleepAfterOK_append cfg evs evs3 hevs hih
      | false =>
        by_cases hq : cfg.max_adds_per_day_per_account ≤ s1.stats phone
        · simp only [innerLoop, if_pos htar, hadd]
          rw [if_pos hq]
          exact hevs
        · simp only [innerLoop, if_pos htar, hadd]
          rw [if_neg hq]
          rcases hrec : innerLoop cfg env rng phone rest added s1 with
            ⟨m3, a3, s3, evs3⟩
          have hih := ih added s1
          rw [hrec] at hih
          exact sleepAfterOK_append cfg evs evs3 hevs hih
    · simp [innerLoop, if_neg htar, sleepAfterOK]

theorem sleepAfterOK_runLoop (cfg : Config) (env : Nat → AddOutcome)
    (rng : Nat → Nat) (auth : String → Bool)
    (hmm : cfg.min_delay ≤ cfg.max_delay) :
    ∀ (fuel : Nat) (members added : List CandidateRecord) (phone : String)
      (s : DState)
      (res : List CandidateRecord × List CandidateRecord × DState × List DEvent),
      runLoop cfg env rng auth fuel members added phone s = some res →
      sleepAfterOK cfg res.2.2.2 = true := by
  intro fuel
  induction fuel with
  | zero => intro members added phone s res h; simp [runLoop] at h
  | succ n ih =>
    intro members added phone s res hrun
    by_cases hg : added.length < cfg.members_to_add ∧ members ≠ []
    · by_cases hauth : auth phone = true
      · by_cases hq : cfg.max_adds_per_day_per_account ≤ s.stats phone
        · have hstep : runLoop cfg env rng auth (n + 1) members added phone s =
              runLoop cfg env rng auth n members added
                (phoneAt cfg ((switch_account cfg s).idx)) (switch_account cfg s) := by
            simp [runLoop, hg, hauth, hq]
          rw [hstep] at hrun
          exact ih members added _ _ res hrun
        · rcases hin : innerLoop cfg env rng phone members added s with
            ⟨m', a', s', evs⟩
          have hstep : runLoop cfg env rng auth (n + 1) members added phone s =
              (runLoop cfg env rng auth n m' a' phone s').map
                (fun r => (r.1, r.2.1, r.2.2.1, evs ++ r.2.2.2)) := by
            simp [runLoop, hg, hauth, hq, hin]
          rw [hstep] at hrun
          rcases hmap : runLoop cfg env rng auth n m' a' phone s' with _ | r0
          · rw [hmap] at hrun
            simp at hrun
          · rw [hmap] at hrun
            have hrun2 : (r0.1, r0.2.1, r0.2.2.1, evs ++ r0.2.2.2) = res :=
              Option.some.inj hrun
            have hevs : sleepAfterOK cfg evs = true := by
              have hh := sleepAfterOK_innerLoop cfg env rng phone hmm members
                added s
              rw [hin] at hh
              exact hh
            rw [← hrun2]
            exact sleepAfterOK_append cfg evs r0.2.2.2 hevs
              (ih m' a' phone s' r0 hmap)
      · have hstep : runLoop cfg env rng auth (n + 1) members added phone s =
            runLoop cfg env rng auth n members added
              (phoneAt cfg ((switch_account cfg s).idx)) (switch_account cfg s) := by
          simp [runLoop, hg, hauth]
        rw [hstep] at hrun
        exact ih members added _ _ res hrun
    · have hstep : runLoop cfg env rng auth (n + 1) members added phone s =
          some (added, members, s, []) := by
        simp [runLoop, hg]
      rw [hstep] at hrun
      rw [← Option.some.inj hrun]
      rfl

theorem sleepAfterOK_flood_get (cfg : Config) :
    ∀ evs : List DEvent, sleepAfterOK cfg evs = true →
      ∀ i uid w, evs.get? i = some (.attempt uid (.floodWait w)) →
        evs.get? (i + 1) = some (.sleep w) := by
  intro evs
  induction evs with
  | nil => intro _ i uid w h; simp at h
  | cons e rest ih =>
    intro hOK i uid w hq
    cases i with
    | zero =>
      simp at hq
      subst hq
      simp only [sleepAfterOK, Bool.and_eq_true] at hOK
      cases rest with
      | nil => simp at hOK
      | cons r2 rest2 =>
        cases r2 with
        | attempt a b => simp at hOK
        | sleep d =>
          have hd : d = w := by simpa using hOK.1
          simp [hd]
    | succ j =>
      simp only [List.get?_cons_succ] at hq ⊢
      apply ih _ j uid w hq
      cases e with
      | attempt a b =>
        simp only [sleepAfterOK, Bool.and_eq_true] at hOK
        exact hOK.2
      | sleep n => simpa [sleepAfterOK] using hOK

theorem sleepAfterOK_success_get (cfg : Config) :
    ∀ evs : List DEvent, sleepAfterOK cfg evs = true →
      ∀ i uid, evs.get? i = some (.attempt uid .success) →
        ∃ d, evs.get? (i + 1) = some (.sleep d) ∧
          cfg.min_delay ≤ d ∧ d ≤ cfg.max_delay := by
  intro evs
  induction evs with
  | nil => intro _ i uid h; simp at h
  | cons e rest ih =>
    intro hOK i uid hq
    cases i with
    | zero =>
      simp at hq
      subst hq
      simp only [sleepAfterOK, Bool.and_eq_true] at hOK
      cases rest with
      | nil => simp at hOK
      | cons r2 rest2 =>
        cases r2 with
        | attempt a b => simp at hOK
        | sleep d =>
          refine ⟨d, by simp, ?_⟩
          have hb := hOK.1
          simp at hb
          exact hb
    | succ j =>
      simp only [List.get?_cons_succ] at hq ⊢
      apply ih _ j uid hq
      cases e with
      | attempt a b =>
        simp only [sleepAfterOK, Bool.and_eq_true] at hOK
        exact hOK.2
      | sleep n => simpa [sleepAfterOK] using hOK

theorem attemptsOf_append (xs ys : List DEvent) :
    attemptsOf (xs ++ ys) = attemptsOf xs ++ attemptsOf ys := by
  induction xs with
  | nil => rfl
  | cons x rest ih => cases x <;> simp [attemptsOf, ih]

theorem attemptsOf_add_member (cfg : Config) (env : Nat → AddOutcome)
    (rng : Nat → Nat) (s : DState) (u : CandidateRecord) :
    attemptsOf (add_member cfg env rng s u).2.2 = [u.id] := by
  cases h : env s.t <;> simp [add_member, h, attemptsOf]

/-- The inner loop pops candidates from the front only: the remaining queue
is a suffix of the input, and the attempted ids are exactly the ids of the
popped prefix, in order — no candidate is ever attempted twice. -/
theorem innerLoop_attempts (cfg : Config) (env : Nat → AddOutcome)
    (rng : Nat → Nat) (phone : String) :
    ∀ (members added : List CandidateRecord) (s : DState), ∃ j,
      (innerLoop cfg env rng phone members added s).1 = members.drop j ∧
      attemptsOf (innerLoop cfg env rng phone members added s).2.2.2 =
        (members.take j).map (fun u => u.id) := by
  intro members
  induction members with
  | nil => intro added s; exact ⟨0, by simp [innerLoop], by simp [innerLoop, attemptsOf]⟩
  | cons u rest ih =>
    intro added s
    by_cases htar : added.length < cfg.members_to_add
    · rcases hadd : add_member cfg env rng s u with ⟨ok, s1, evs⟩
      have hatts : attemptsOf evs = [u.id] := by
        have hh := attemptsOf_add_member cfg env rng s u
        rw [hadd] at hh
        exact hh
      cases ok with
      | true =>
        by_cases hq : cfg.max_adds_per_day_per_account ≤
            bump s1.stats phone phone
        · refine ⟨1, ?_, ?_⟩
          · simp only [innerLoop, if_pos htar, hadd]
            rw [if_pos hq]
            simp
          · simp only [innerLoop, if_pos htar, hadd]
            rw [if_pos hq]
            simp [hatts]
        · rcases hrec : innerLoop cfg env rng phone rest (added ++ [u])
              { s1 with stats := bump s1.stats phone } with ⟨m3, a3, s3, evs3⟩
          obtain ⟨j, hj1, hj2⟩ := ih (added ++ [u])
            { s1 with stats := bump s1.stats phone }
          rw [hrec] at hj1 hj2
          refine ⟨j + 1, ?_, ?_⟩
          · simp only [innerLoop, if_pos htar, hadd]
            rw [if_neg hq]
            simp only [hrec, List.drop_succ_cons]
            exact hj1
          · simp only [innerLoop, if_pos htar, hadd]
            rw [if_neg hq]
            simp only [hrec, List.take_succ_cons]
            simp [attemptsOf_append, hatts, hj2]
      | false =>
        by_cases hq : cfg.max_adds_per_day_per_account ≤ s1.stats phone
        · refine ⟨1, ?_, ?_⟩
          · simp only [innerLoop, if_pos htar, hadd]
            rw [if_pos hq]
            simp
          · simp only [innerLoop, if_pos htar, hadd]
            rw [if_pos hq]
            simp [hatts]
        · rcases hrec : innerLoop cfg env rng phone rest added s1 with
            ⟨m3, a3, s3, evs3⟩
          obtain ⟨j, hj1, hj2⟩ := ih added s1
          rw [hrec] at hj1 hj2
          refine ⟨j + 1, ?_, ?_⟩
          · simp only [innerLoop, if_pos htar, hadd]
            rw [if_neg hq]
            simp only [hrec, List.drop_succ_cons]
            exact hj1
          · simp only [innerLoop, if_pos htar, hadd]
            rw [if_neg hq]
            simp only [hrec, List.take_succ_cons]
            simp [attemptsOf_append, hatts, hj2]
    · exact ⟨0, by simp [innerLoop, if_neg htar],
        by simp [innerLoop, if_neg htar, attemptsOf]⟩

/-- Lifting of `innerLoop_attempts` to the whole run. -/
theorem runLoop_attempts (cfg : Config) (env : Nat → AddOutcome)
    (rng : Nat → Nat) (auth : String → Bool) :
    ∀ (fuel : Nat) (members added : List CandidateRecord) (phone : String)
      (s : DState)
      (res : List CandidateRecord × List CandidateRecord × DState × List DEvent),
      runLoop cfg env rng auth fuel members added phone s = some res → ∃ j,
        res.2.1 = members.drop j ∧
        attemptsOf res.2.2.2 = (members.take j).map (fun u => u.id) := by
  intro fuel
  induction fuel with
  | zero => intro members added phone s res h; simp [runLoop] at h
  | succ n ih =>
    intro members added phone s res hrun
    by_cases hg : added.length < cfg.members_to_add ∧ members ≠ []
    · by_cases hauth : auth phone = true
      · by_cases hq : cfg.max_adds_per_day_per_account ≤ s.stats phone
        · have hstep : runLoop cfg env rng auth (n + 1) members added phone s =
              runLoop cfg env rng auth n members added
                (phoneAt cfg ((switch_account cfg s).idx)) (switch_account cfg s) := by
            simp [runLoop, hg, hauth, hq]
          rw [hstep] at hrun
          exact ih members added _ _ res hrun
        · rcases hin : innerLoop cfg env rng phone members added s with
            ⟨m', a', s', evs⟩
          have hstep : runLoop cfg env rng auth (n + 1) members added phone s =
              (runLoop cfg env rng auth n m' a' phone s').map
                (fun r => (r.1, r.2.1, r.2.2.1, evs ++ r.2.2.2)) := by
            simp [runLoop, hg, hauth, hq, hin]
          rw [hstep] at hrun
          rcases hmap : runLoop cfg env rng auth n m' a' phone s' with _ | r0
          · rw [hmap] at hrun
            simp at hrun
          · rw [hmap] at hrun
            have hrun2 : (r0.1, r0.2.1, r0.2.2.1, evs ++ r0.2.2.2) = res :=
              Option.some.inj hrun
            obtain ⟨j1, hj11, hj12⟩ := innerLoop_attempts cfg env rng phone
              members added s
            rw [hin] at hj11 hj12
            simp only at hj11 hj12
            obtain ⟨j2, hj21, hj22⟩ := ih m' a' phone s' r0 hmap
            refine ⟨j1 + j2, ?_, ?_⟩
            · rw [← hrun2]
              simp only
              rw [hj21, hj11, List.drop_drop]
            · rw [← hrun2]
              simp only
              rw [attemptsOf_append, hj12, hj22, hj11, List.take_add,
                List.map_append]
      · have hstep : runLoop cfg env rng auth (n + 1) members added phone s =
            runLoop cfg env rng auth n members added
              (phoneAt cfg ((switch_account cfg s).idx)) (switch_account cfg s) := by
          simp [runLoop, hg, hauth]
        rw [hstep] at hrun
        exact ih members added _ _ res hrun
    · have hstep : runLoop cfg env rng auth (n + 1) members added phone s =
          some (added, members, s, []) := by
        simp [runLoop, hg]
      rw [hstep] at hrun
      rw [← Option.some.inj hrun]
      exact ⟨0, by simp, by simp [attemptsOf]⟩

/-- Everything in the inner loop's added output was there before or has a
successful attempt event in the loop's trace. -/
theorem innerLoop_added_mem (cfg : Config) (env : Nat → AddOutcome)
    (rng : Nat → Nat) (phone : String) :
    ∀ (members added : List CandidateRecord) (s : DState)
      (u : CandidateRecord),
      u ∈ (innerLoop cfg env rng phone members added s).2.1 →
      u ∈ added ∨ DEvent.attempt u.id .success ∈
        (innerLoop cfg env rng phone members added s).2.2.2 := by
  intro members
  induction members with
  | nil => intro added s u h; simp [innerLoop] at h; exact Or.inl h
  | cons u0 rest ih =>
    intro added s u hmem
    by_cases htar : added.length < cfg.members_to_add
    · rcases hadd : add_member cfg env rng s u0 with ⟨ok, s1, evs⟩
      cases ok with
      | true =>
        have hev : DEvent.attempt u0.id .success ∈ evs := by
          have hh := add_member_success_mem cfg env rng s u0
            (by rw [hadd])
          rw [hadd] at hh
          exact hh
        by_cases hq : cfg.max_adds_per_day_per_account ≤
            bump s1.stats phone phone
        · simp only [innerLoop, if_pos htar, hadd] at hmem ⊢
          rw [if_pos hq] at hmem ⊢
          simp only at hmem
          rcases List.mem_append.mp hmem with h | h
          · exact Or.inl h
          · simp at h
            subst h
            exact Or.inr hev
        · simp only [innerLoop, if_pos htar, hadd] at hmem ⊢
          rw [if_neg hq] at hmem ⊢
          rcases hrec : innerLoop cfg env rng phone rest (added ++ [u0])
              { s1 with stats := bump s1.stats phone } with ⟨m3, a3, s3, evs3⟩
          rw [hrec] at hmem
          simp only at hmem ⊢
          have hih := ih (added ++ [u0]) { s1 with stats := bump s1.stats phone }
            u
          rw [hrec] at hih
          rcases hih hmem with h | h
          · rcases List.mem_append.mp h with h2 | h2
            · exact Or.inl h2
            · simp at h2
              subst h2
              exact Or.inr (List.mem_append.mpr (Or.inl hev))
          · exact Or.inr (List.mem_append.mpr (Or.inr h))
      | false =>
        by_cases hq : cfg.max_adds_per_day_per_account ≤ s1.stats phone
        · simp only [innerLoop, if_pos htar, hadd] at hmem ⊢
          rw [if_pos hq] at hmem ⊢
          exact Or.inl hmem
        · simp only [innerLoop, if_pos htar, hadd] at hmem ⊢
          rw [if_neg hq] at hmem ⊢
          rcases hrec : innerLoop cfg env rng phone rest added s1 with
            ⟨m3, a3, s3, evs3⟩
          rw [hrec] at hmem
          simp only at hmem ⊢
          have hih := ih added s1 u
          rw [hrec] at hih
          rcases hih hmem with h | h
          · exact Or.inl h
          · exact Or.inr (List.mem_append.mpr (Or.inr h))
    · simp only [innerLoop, if_neg htar] at hmem
      exact Or.inl hmem

/-- Everything in a run's added output was there before or has a successful
attempt event in the run's trace. -/
theorem runLoop_added_mem (cfg : Config) (env : Nat → AddOutcome)
    (rng : Nat → Nat) (auth : String → Bool) :
    ∀ (fuel : Nat) (members added : List CandidateRecord) (phone : String)
      (s : DState)
      (res : List CandidateRecord × List CandidateRecord × DState × List DEvent),
      runLoop cfg env rng auth fuel members added phone s = some res →
      ∀ u ∈ res.1, u ∈ added ∨ DEvent.attempt u.id .success ∈ res.2.2.2 := by
  intro fuel
  induction fuel with
  | zero => intro members added phone s res h; simp [runLoop] at h
  | succ n ih =>
    intro members added phone s res hrun u hu
    by_cases hg : added.length < cfg.members_to_add ∧ members ≠ []
    · by_cases hauth : auth phone = true
      · by_cases hq : cfg.max_adds_per_day_per_account ≤ s.stats phone
        · have hstep : runLoop cfg env rng auth (n + 1) members added phone s =
              runLoop cfg env rng auth n members added
                (phoneAt cfg ((switch_account cfg s).idx)) (switch_account cfg s) := by
            simp [runLoop, hg, hauth, hq]
          rw [hstep] at hrun
          exact ih members added _ _ res hrun u hu
        · rcases hin : innerLoop cfg env rng phone members added s with
            ⟨m', a', s', evs⟩
          have hstep : runLoop cfg env rng auth (n + 1) members added phone s =
              (runLoop cfg env rng auth n m' a' phone s').map
                (fun r => (r.1, r.2.1, r.2.2.1, evs ++ r.2.2.2)) := by
            simp [runLoop, hg, hauth, hq, hin]
          rw [hstep] at hrun
          rcases hmap : runLoop cfg env rng auth n m' a' phone s' with _ | r0
          · rw [hmap] at hrun
            simp at hrun
          · rw [hmap] at hrun
            have hrun2 : (r0.1, r0.2.1, r0.2.2.1, evs ++ r0.2.2.2) = res :=
              Option.some.inj hrun
            rw [← hrun2] at hu
            simp only at hu
            rcases ih m' a' phone s' r0 hmap u hu with h | h
            · have hil := innerLoop_added_mem cfg env rng phone members added s u
              rw [hin] at hil
              simp only at hil
              rcases hil h with h2 | h2
              · exact Or.inl h2
              · rw [← hrun2]
                exact Or.inr (List.mem_append.mpr (Or.inl h2))
            · rw [← hrun2]
              exact Or.inr (List.mem_append.mpr (Or.inr h))
      · have hstep : runLoop cfg env rng auth (n + 1) members added phone s =
            runLoop cfg env rng auth n members added
              (phoneAt cfg ((switch_account cfg s).idx)) (switch_account cfg s) := by
          simp [runLoop, hg, hauth]
        rw [hstep] at hrun
        exact ih members added _ _ res hrun u hu
    · have hstep : runLoop cfg env rng auth (n + 1) members added phone s =
          some (added, members, s, []) := by
        simp [runLoop, hg]
      rw [hstep] at hrun
      rw [← Option.some.inj hrun] at hu
      exact Or.inl hu

theorem mem_attemptsOf (uid : Nat) (o : AddOutcome) :
    ∀ evs : List DEvent, DEvent.attempt uid o ∈ evs → uid ∈ attemptsOf evs := by
  intro evs
  induction evs with
  | nil => simp
  | cons e rest ih =>
    intro h
    rcases List.mem_cons.mp h with h1 | h2
    · rw [← h1]
      simp [attemptsOf]
    · cases e with
      | attempt a b =>
        simp only [attemptsOf, List.mem_cons]
        exact Or.inr (ih h2)
      | sleep n =>
        simpa [attemptsOf] using ih h2

theorem attemptsOf_count_two (uid : Nat) (o1 o2 : AddOutcome) (hne : o1 ≠ o2) :
    ∀ evs : List DEvent, DEvent.attempt uid o1 ∈ evs →
      DEvent.attempt uid o2 ∈ evs → 2 ≤ (attemptsOf evs).count uid := by
  intro evs
  induction evs with
  | nil => simp
  | cons e rest ih =>
    intro h1 h2
    rcases List.mem_cons.mp h1 with h1h | h1t
    · rcases List.mem_cons.mp h2 with h2h | h2t
      · rw [← h1h] at h2h
        simp at h2h
        exact absurd h2h.symm hne
      · rw [← h1h]
        simp only [attemptsOf]
        have hm := mem_attemptsOf uid o2 rest h2t
        have hc : 1 ≤ (attemptsOf rest).count uid :=
          List.count_pos_iff_mem.mpr hm
        rw [List.count_cons_self]
        omega
    · rcases List.mem_cons.mp h2 with h2h | h2t
      · rw [← h2h]
        simp only [attemptsOf]
        have hm := mem_attemptsOf uid o1 rest h1t
        have hc : 1 ≤ (attemptsOf rest).count uid :=
          List.count_pos_iff_mem.mpr hm
        rw [List.count_cons_self]
        omega
      · have hih := ih h1t h2t
        cases e with
        | attempt a b =>
          simp only [attemptsOf]
          by_cases hab : uid = a
          · rw [← hab, List.count_cons_self]
            omega
          · rw [List.count_cons_of_ne hab]
            exact hih
        | sleep n =>
          simpa [attemptsOf] using hih

/-- C5: when an add attempt is rate-limited with a server-specified wait of
`w` units, the Dispatcher sleeps exactly `w` units immediately after the
attempt (so at least `w` units pass before the next attempt), the attempt
returns failure, and — the candidate having already been popped from the
front of the queue — it is never retried (each candidate id is attempted at
most once) and is absent from the final added set. -/
theorem claim_C5_rate_limit (cfg : Config) (env : Nat → AddOutcome)
    (rng : Nat → Nat) (auth : String → Bool) (fuel : Nat)
    (members : List CandidateRecord) (res : DRunResult)
    (hmm : cfg.min_delay ≤ cfg.max_delay)
    (hnd : (members.map (fun u => u.id)).Nodup)
    (hrun : MemberAdder_run cfg env rng auth fuel members = some res) :
    (∀ i uid w, res.events.get? i = some (.attempt uid (.floodWait w)) →
       res.events.get? (i + 1) = some (.sleep w)) ∧
    (∀ (s : DState) (u : CandidateRecord) (w : Nat), env s.t = .floodWait w →
       (add_member cfg env rng s u).1 = false ∧
       (add_member cfg env rng s u).2.2 =
         [.attempt u.id (.floodWait w), .sleep w]) ∧
    (∀ uid, (attemptsOf res.events).count uid ≤ 1) ∧
    (∀ uid w, DEvent.attempt uid (.floodWait w) ∈ res.events →
       uid ∉ res.added.map (fun u => u.id)) := by
  have hfail : ∀ (s : DState) (u : CandidateRecord) (w : Nat),
      env s.t = .floodWait w →
      (add_member cfg env rng s u).1 = false ∧
      (add_member cfg env rng s u).2.2 =
        [.attempt u.id (.floodWait w), .sleep w] := by
    intro s u w hw
    rw [add_member_floodWait_eq cfg env rng s u w hw]
    exact ⟨rfl, rfl⟩
  by_cases hm : members = []
  · simp only [MemberAdder_run, if_pos hm, Option.some.injEq] at hrun
    rw [← hrun]
    refine ⟨?_, hfail, ?_, ?_⟩
    · intro i uid w h
      simp at h
    · intro uid
      simp [attemptsOf]
    · intro uid w h
      simp at h
  · simp only [MemberAdder_run, if_neg hm] at hrun
    rcases hloop : runLoop cfg env rng auth fuel members [] (phoneAt cfg 0)
        initState with _ | r0
    · rw [hloop] at hrun
      simp at hrun
    · rw [hloop] at hrun
      rcases r0 with ⟨a0, m0, s0, e0⟩
      have hres : res =
          { added := a0, remaining := m0, state := s0, events := e0,
            progress := some (save_progress s0.stats a0) } :=
        (Option.some.inj hrun).symm
      subst hres
      simp only
      obtain ⟨j, hj1, hj2⟩ := runLoop_attempts cfg env rng auth fuel members []
        (phoneAt cfg 0) initState (a0, m0, s0, e0) hloop
      simp only at hj1 hj2
      have hcount : ∀ uid, (attemptsOf e0).count uid ≤ 1 := by
        intro uid
        rw [hj2, List.map_take]
        exact List.nodup_iff_count_le_one.mp
          (List.Nodup.sublist (List.take_sublist j _) hnd) uid
      refine ⟨?_, hfail, hcount, ?_⟩
      · exact sleepAfterOK_flood_get cfg e0
          (sleepAfterOK_runLoop cfg env rng auth hmm fuel members []
            (phoneAt cfg 0) initState (a0, m0, s0, e0) hloop)
      · intro uid w hflood huid
        obtain ⟨u, hu, hueq⟩ := List.mem_map.mp huid
        have hmem := runLoop_added_mem cfg env rng auth fuel members []
          (phoneAt cfg 0) initState (a0, m0, s0, e0) hloop u hu
        rcases hmem with h | h
        · simp at h
        · rw [hueq] at h
          have h2 := attemptsOf_count_two uid (.floodWait w) .success
            (by simp) e0 hflood h
          have h1 := hcount uid
          omega

/-- C5 witness: a concrete run whose first attempt is rate-limited with a
30-unit wait: the trace sleeps 30 right after it and candidate id 1 is not
in the final added set. -/
theorem claim_C5_rate_limit_witness :
    ∃ res, MemberAdder_run cfgOne envFlood30 rng0 authAll 5 [mem1, mem2] =
        some res ∧
      res.events.get? 1 = some (.sleep 30) ∧
      (1 : Nat) ∉ res.added.map (fun u => u.id) := by
  refine ⟨(MemberAdder_run cfgOne envFlood30 rng0 authAll 5 [mem1, mem2]).get
    (by rfl), (Option.some_get _).symm, ?_, ?_⟩
  · exact (claim_C5_rate_limit cfgOne envFlood30 rng0 authAll 5 [mem1, mem2]
      _ (by decide) (by decide) (Option.some_get _).symm).1 0 1 30 (by rfl)
  · exact (claim_C5_rate_limit cfgOne envFlood30 rng0 authAll 5 [mem1, mem2]
      _ (by decide) (by decide) (Option.some_get _).symm).2.2.2 1 30 (by decide)

/-- C8: every successful addition is immediately followed by a sleep whose
integer duration lies in the inclusive configured interval
`[min_delay, max_delay]`; in particular when `min_delay = max_delay` the
delay equals that common value (so with both equal to 5 every successful
addition is followed by a delay of exactly 5). -/
theorem claim_C8_random_delay (cfg : Config) (env : Nat → AddOutcome)
    (rng : Nat → Nat) (auth : String → Bool) (fuel : Nat)
    (members : List CandidateRecord) (res : DRunResult)
    (hmm : cfg.min_delay ≤ cfg.max_delay)
    (hrun : MemberAdder_run cfg env rng auth fuel members = some res) :
    ∀ i uid, res.events.get? i = some (.attempt uid .success) →
      ∃ d, res.events.get? (i + 1) = some (.sleep d) ∧
        cfg.min_delay ≤ d ∧ d ≤ cfg.max_delay ∧
        (cfg.min_delay = cfg.max_delay → d = cfg.min_delay) := by
  by_cases hm : members = []
  · simp only [MemberAdder_run, if_pos hm, Option.some.injEq] at hrun
    rw [← hrun]
    intro i uid h
    simp at h
  · simp only [MemberAdder_run, if_neg hm] at hrun
    rcases hloop : runLoop cfg env rng auth fuel members [] (phoneAt cfg 0)
        initState with _ | r0
    · rw [hloop] at hrun
      simp at hrun
    · rw [hloop] at hrun
      rcases r0 with ⟨a0, m0, s0, e0⟩
      have hres : res =
          { added := a0, remaining := m0, state := s0, events := e0,
            progress := some (save_progress s0.stats a0) } :=
        (Option.some.inj hrun).symm
      subst hres
      simp only
      intro i uid hi
      obtain ⟨d, hd, hd1, hd2⟩ := sleepAfterOK_success_get cfg e0
        (sleepAfterOK_runLoop cfg env rng auth hmm fuel members []
          (phoneAt cfg 0) initState (a0, m0, s0, e0) hloop) i uid hi
      exact ⟨d, hd, hd1, hd2, fun he => Nat.le_antisymm (he ▸ hd2) hd1⟩

/-- C8 witness: with `min_delay = max_delay = 5` (the concrete small
configuration) the successful addition at trace position 0 is followed by a
sleep of exactly 5. -/
theorem claim_C8_random_delay_witness :
    ∃ res, MemberAdder_run cfgSmall envSuccess rng0 authAll 5 [mem1, mem2] =
        some res ∧
      res.events.get? 0 = some (.attempt 1 .success) ∧
      res.events.get? 1 = some (.sleep 5) := by
  refine ⟨(MemberAdder_run cfgSmall envSuccess rng0 authAll 5 [mem1, mem2]).get
    (by rfl), (Option.some_get _).symm, by rfl, ?_⟩
  obtain ⟨d, hd, hd1, hd2, heq⟩ := claim_C8_random_delay cfgSmall envSuccess
    rng0 authAll 5 [mem1, mem2] _ (by decide) (Option.some_get _).symm 0 1
    (by rfl)
  rw [hd, heq rfl]
  rfl

/-! ## Claim C2: termination behaviour of the Dispatcher -/

/-- If the outer loop returns at all, it is exactly because the candidate
queue is exhausted or the target count has been reached. -/
theorem runLoop_exit (cfg : Config) (env : Nat → AddOutcome)
    (rng : Nat → Nat) (auth : String → Bool) :
    ∀ (fuel : Nat) (members added : List CandidateRecord) (phone : String)
      (s : DState)
      (res : List CandidateRecord × List CandidateRecord × DState × List DEvent),
      runLoop cfg env rng auth fuel members added phone s = some res →
      res.2.1 = [] ∨ cfg.members_to_add ≤ res.1.length := by
  intro fuel
  induction fuel with
  | zero => intro members added phone s res h; simp [runLoop] at h
  | succ n ih =>
    intro members added phone s res hrun
    by_cases hg : added.length < cfg.members_to_add ∧ members ≠ []
    · by_cases hauth : auth phone = true
      · by_cases hq : cfg.max_adds_per_day_per_account ≤ s.stats phone
        · have hstep : runLoop cfg env rng auth (n + 1) members added phone s =
              runLoop cfg env rng auth n members added
                (phoneAt cfg ((switch_account cfg s).idx)) (switch_account cfg s) := by
            simp [runLoop, hg, hauth, hq]
          rw [hstep] at hrun
          exact ih members added _ _ res hrun
        · rcases hin : innerLoop cfg env rng phone members added s with
            ⟨m', a', s', evs⟩
          have hstep : runLoop cfg env rng auth (n + 1) members added phone s =
              (runLoop cfg env rng auth n m' a' phone s').map
                (fun r => (r.1, r.2.1, r.2.2.1, evs ++ r.2.2.2)) := by
            simp [runLoop, hg, hauth, hq, hin]
          rw [hstep] at hrun
          rcases hmap : runLoop cfg env rng auth n m' a' phone s' with _ | r0
          · rw [hmap] at hrun
            simp at hrun
          · rw [hmap] at hrun
            have hrun2 : (r0.1, r0.2.1, r0.2.2.1, evs ++ r0.2.2.2) = res :=
              Option.some.inj hrun
            rw [← hrun2]
            exact ih m' a' phone s' r0 hmap
      · have hstep : runLoop cfg env rng auth (n + 1) members added phone s =
            runLoop cfg env rng auth n members added
              (phoneAt cfg ((switch_account cfg s).idx)) (switch_account cfg s) := by
          simp [runLoop, hg, hauth]
        rw [hstep] at hrun
        exact ih members added _ _ res hrun
    · have hstep : runLoop cfg env rng auth (n + 1) members added phone s =
          some (added, members, s, []) := by
        simp [runLoop, hg]
      rw [hstep] at hrun
      rw [← Option.some.inj hrun]
      by_cases hmem : members = []
      · exact Or.inl hmem
      · right
        have hlt : ¬ added.length < cfg.members_to_add := fun hlt => hg ⟨hlt, hmem⟩
        simp only
        omega

/-- The outer loop never finishes when the single configured account's daily
quota is already exhausted while candidates remain: every iteration rotates
back to the same state. -/
theorem runLoop_quota0_diverge :
    ∀ fuel, runLoop cfgQuota0 envErr rng0 authAll fuel [mem1] []
      (phoneAt cfgQuota0 0) initState = none := by
  intro fuel
  induction fuel with
  | zero => rfl
  | succ n ih => exact ih

/-- C2 counterexample: with one account whose daily cap is 0, one remaining
candidate and target 1, the Dispatcher run does NOT terminate — for no fuel
bound whatsoever does the outer loop return: each iteration finds the quota
reached, rotates back to the same single account, and loops forever. The
claim that the run terminates for every configuration is false. -/
theorem claim_C2_cex :
    ¬ ∃ fuel res, MemberAdder_run cfgQuota0 envErr rng0 authAll fuel [mem1] =
      some res := by
  rintro ⟨fuel, res, h⟩
  have hne : ¬ ([mem1] = ([] : List CandidateRecord)) := by decide
  simp only [MemberAdder_run, if_neg hne] at h
  rw [runLoop_quota0_diverge fuel] at h
  simp at h

/-- C2 (amended): whenever the Dispatcher run does terminate, it terminates
exactly because the target count was reached or the candidate queue was
exhausted, and it persists a final Progress Record whose `added_members` is
the final added set; however, termination does not hold for every
configuration — when every account's daily quota is exhausted while
candidates remain and the target is unmet, the outer loop never terminates
(see the counterexample). -/
theorem claim_C2_amended (cfg : Config) (env : Nat → AddOutcome)
    (rng : Nat → Nat) (auth : String → Bool) (fuel : Nat)
    (members : List CandidateRecord) (res : DRunResult)
    (hm : members ≠ [])
    (hrun : MemberAdder_run cfg env rng auth fuel members = some res) :
    (res.remaining = [] ∨ cfg.members_to_add ≤ res.added.length) ∧
    res.progress = some (save_progress res.state.stats res.added) ∧
    (save_progress res.state.stats res.added).added_members = res.added := by
  simp only [MemberAdder_run, if_neg hm] at hrun
  rcases hloop : runLoop cfg env rng auth fuel members [] (phoneAt cfg 0)
      initState with _ | r0
  · rw [hloop] at hrun
    simp at hrun
  · rw [hloop] at hrun
    rcases r0 with ⟨a0, m0, s0, e0⟩
    have hres : res =
        { added := a0, remaining := m0, state := s0, events := e0,
          progress := some (save_progress s0.stats a0) } :=
      (Option.some.inj hrun).symm
    subst hres
    refine ⟨?_, rfl, rfl⟩
    exact runLoop_exit cfg env rng auth fuel members [] (phoneAt cfg 0)
      initState (a0, m0, s0, e0) hloop

/-- C2 witness: a concrete terminating run — target reached, final Progress
Record persisted. -/
theorem claim_C2_amended_witness :
    ∃ res, MemberAdder_run cfgSmall envSuccess rng0 authAll 5 [mem1, mem2] =
        some res ∧
      (res.remaining = [] ∨ cfgSmall.members_to_add ≤ res.added.length) ∧
      res.progress = some (save_progress res.state.stats res.added) := by
  refine ⟨(MemberAdder_run cfgSmall envSuccess rng0 authAll 5 [mem1, mem2]).get
    (by rfl), (Option.some_get _).symm, ?_, ?_⟩
  · exact (claim_C2_amended cfgSmall envSuccess rng0 authAll 5 [mem1, mem2] _
      (by decide) (Option.some_get _).symm).1
  · exact (claim_C2_amended cfgSmall envSuccess rng0 authAll 5 [mem1, mem2] _
      (by decide) (Option.some_get _).symm).2.1

/-! ## Claim C3: exact target count under sufficient quota -/

theorem bumpN_zero (f : String → Nat) (k : String) : bumpN f k 0 = f := by
  funext x
  by_cases hx : x = k <;> simp [bumpN, hx]

theorem bump_eq_bumpN_one (f : String → Nat) (k : String) :
    bump f k = bumpN f k 1 := by
  funext x
  by_cases hx : x = k <;> simp [bump, bumpN, hx]

theorem bumpN_bump (f : String → Nat) (k : String) (j : Nat) :
    bumpN (bump f k) k j = bumpN f k (j + 1) := by
  funext x
  by_cases hx : x = k
  · simp only [bump, bumpN, if_pos hx, if_true]
    omega
  · simp [bump, bumpN, hx]

theorem bumpN_self (f : String → Nat) (k : String) (j : Nat) :
    bumpN f k j k = f k + j := by
  simp [bumpN]

theorem bumpN_ne (f : String → Nat) (k p : String) (j : Nat) (h : p ≠ k) :
    bumpN f k j p = f p := by
  simp [bumpN, h]

theorem sumStats_nil (f : String → Nat) : sumStats [] f = 0 := rfl

theorem sumStats_cons (a : String) (rest : List String) (f : String → Nat) :
    sumStats (a :: rest) f = f a + sumStats rest f := by
  simp [sumStats]

theorem sumStats_const0 (accounts : List String) :
    sumStats accounts (fun _ => 0) = 0 := by
  induction accounts with
  | nil => rfl
  | cons a rest ih => simp [sumStats_cons, ih]

theorem sumStats_bumpN_notmem (k : String) (j : Nat) (f : String → Nat) :
    ∀ l : List String, k ∉ l → sumStats l (bumpN f k j) = sumStats l f := by
  intro l
  induction l with
  | nil => intro _; rfl
  | cons b rb ihb =>
    intro hnr
    rw [sumStats_cons, sumStats_cons, bumpN_ne]
    · rw [ihb (fun hb => hnr (List.mem_cons_of_mem _ hb))]
    · intro hbk
      exact hnr (by rw [← hbk]; exact List.mem_cons_self b rb)

theorem sumStats_bumpN (k : String) (j : Nat) (f : String → Nat) :
    ∀ accounts : List String, accounts.Nodup → k ∈ accounts →
      sumStats accounts (bumpN f k j) = sumStats accounts f + j := by
  intro accounts
  induction accounts with
  | nil => intro _ hk; simp at hk
  | cons a rest ih =>
    intro hnd hk
    have hnd2 := List.nodup_cons.mp hnd
    rcases List.mem_cons.mp hk with hka | hkr
    · have hnr : k ∉ rest := by rw [hka]; exact hnd2.1
      rw [sumStats_cons, sumStats_cons, ← hka, bumpN_self,
        sumStats_bumpN_notmem k j f rest hnr]
      omega
    · have hak : a ≠ k := fun he => hnd2.1 (he ▸ hkr)
      rw [sumStats_cons, sumStats_cons, bumpN_ne f k a _ hak,
        ih hnd2.2 hkr]
      omega

theorem sumStats_ge (Q : Nat) (f : String → Nat) :
    ∀ l : List String, (∀ p ∈ l, Q ≤ f p) → l.length * Q ≤ sumStats l f := by
  intro l
  induction l with
  | nil => intro _; simp [sumStats_nil]
  | cons a rest ih =>
    intro h
    rw [sumStats_cons, List.length_cons]
    have h1 := h a (List.mem_cons_self a rest)
    have h2 := ih (fun p hp => h p (List.mem_cons_of_mem _ hp))
    calc (rest.length + 1) * Q = rest.length * Q + Q := by ring
    _ ≤ sumStats rest f + f a := by omega
    _ = f a + sumStats rest f := by omega

theorem phoneAt_mem (cfg : Config) (i : Nat) (h : i < cfg.accounts.length) :
    phoneAt cfg i ∈ cfg.accounts := by
  rw [phoneAt, List.getD_eq_getElem _ _ h]
  exact List.getElem_mem h

theorem mem_phoneAt (cfg : Config) (p : String) (h : p ∈ cfg.accounts) :
    ∃ i < cfg.accounts.length, phoneAt cfg i = p := by
  obtain ⟨⟨i, hi⟩, hget⟩ := List.mem_iff_get.mp h
  exact ⟨i, hi, by rw [phoneAt, List.getD_eq_getElem _ _ hi]; exact hget⟩

theorem phone_cycle (R idx i : Nat) (hR : 0 < R) (hidx : idx < R)
    (hi : i < R) : ∃ k < R, (idx + k) % R = i := by
  refine ⟨(i + R - idx) % R, Nat.mod_lt _ hR, ?_⟩
  have h1 : (idx + (i + R - idx) % R) % R = (idx + (i + R - idx)) % R :=
    Nat.ModEq.add_left idx (Nat.mod_modEq _ R)
  have h2 : idx + (i + R - idx) = i + R := by omega
  rw [h1, h2, Nat.add_mod_right, Nat.mod_eq_of_lt hi]

theorem exists_under_quota (cfg : Config) (f : String → Nat)
    (hsum : sumStats cfg.accounts f <
      cfg.accounts.length * cfg.max_adds_per_day_per_account) :
    ∃ p ∈ cfg.accounts, f p < cfg.max_adds_per_day_per_account := by
  by_contra h
  push_neg at h
  have := sumStats_ge cfg.max_adds_per_day_per_account f cfg.accounts h
  omega

/-- When every attempt succeeds and the inner loop is entered below the
daily cap, it pops and adds exactly
`min (target - added) (min (cap - counter) (queue length))` candidates:
it stops at the target, at the daily cap, or when the queue empties. -/
theorem innerLoop_success (cfg : Config) (env : Nat → AddOutcome)
    (rng : Nat → Nat) (phone : String) (henv : ∀ t, env t = .success) :
    ∀ (members added : List CandidateRecord) (s : DState),
      s.stats phone < cfg.max_adds_per_day_per_account →
      ∃ j evs,
        j = min (cfg.members_to_add - added.length)
          (min (cfg.max_adds_per_day_per_account - s.stats phone)
            members.length) ∧
        innerLoop cfg env rng phone members added s =
          (members.drop j, added ++ members.take j,
           { idx := s.idx, stats := bumpN s.stats phone j,
             t := s.t + j, r := s.r + j }, evs) := by
  intro members
  induction members with
  | nil =>
    intro added s hlt
    refine ⟨0, [], by simp, ?_⟩
    rcases s with ⟨i, st, t, r⟩
    simp [innerLoop, bumpN_zero]
  | cons u rest ih =>
    intro added s hlt
    by_cases htar : added.length < cfg.members_to_add
    · have hadd := add_member_success_eq cfg env rng s u (henv s.t)
      by_cases hq2 : cfg.max_adds_per_day_per_account ≤
          bump s.stats phone phone
      · refine ⟨1, [.attempt u.id .success,
          .sleep (randint (rng s.r) cfg.min_delay cfg.max_delay)], ?_, ?_⟩
        · have hb := bump_self s.stats phone
          simp only [List.length_cons]
          omega
        · simp only [innerLoop, if_pos htar, hadd]
          rw [if_pos hq2]
          rw [show ((u :: rest).drop 1) = rest from rfl,
            show ((u :: rest).take 1) = [u] from rfl,
            ← bump_eq_bumpN_one]
      · have hih := ih (added ++ [u])
          ⟨s.idx, bump s.stats phone, s.t + 1, s.r + 1⟩
          (by simpa [bump_self] using Nat.lt_of_not_le hq2)
        obtain ⟨j, evs, hj, heq⟩ := hih
        refine ⟨j + 1, [.attempt u.id .success,
          .sleep (randint (rng s.r) cfg.min_delay cfg.max_delay)] ++ evs,
          ?_, ?_⟩
        · have hb := bump_self s.stats phone
          simp only [List.length_append, List.length_cons, List.length_nil,
            bump_self] at hj
          simp only [List.length_cons]
          omega
        · simp only [innerLoop, if_pos htar, hadd]
          rw [if_neg hq2]
          rw [heq]
          rw [show ((u :: rest).drop (j + 1)) = rest.drop j from rfl,
            show ((u :: rest).take (j + 1)) = u :: rest.take j from rfl,
            bumpN_bump, List.append_assoc,
            show (([u] : List CandidateRecord) ++ rest.take j) =
              u :: rest.take j from rfl,
            show s.t + 1 + j = s.t + (j + 1) from by omega,
            show s.r + 1 + j = s.r + (j + 1) from by omega]
    · refine ⟨0, [], by simp [Nat.sub_eq_zero_of_le (Nat.le_of_not_lt htar)], ?_⟩
      rcases s with ⟨i, st, t, r⟩
      simp [innerLoop, if_neg htar, bumpN_zero]

/-- Main termination-and-count lemma for the all-success Dispatcher: from
any loop state satisfying the invariants (index in range, counters summing
to the added count, enough candidates and enough total quota), some fuel
makes the outer loop return with exactly the target number of added
records. The measure is
`(target - added) * (accounts + 1) + (rotation steps to an account with
remaining quota)`. -/
theorem runLoop_success_reaches_target (cfg : Config) (env : Nat → AddOutcome)
    (rng : Nat → Nat) (auth : String → Bool)
    (henv : ∀ t, env t = .success) (hauth : ∀ p, auth p = true)
    (hnd : cfg.accounts.Nodup)
    (hcap : cfg.members_to_add ≤
      cfg.accounts.length * cfg.max_adds_per_day_per_account) :
    ∀ μ : Nat, ∀ (members added : List CandidateRecord) (s : DState) (b : Nat),
      μ = (cfg.members_to_add - added.length) * (cfg.accounts.length + 1) + b →
      s.idx < cfg.accounts.length →
      sumStats cfg.accounts s.stats = added.length →
      added.length ≤ cfg.members_to_add →
      cfg.members_to_add ≤ added.length + members.length →
      (cfg.members_to_add ≤ added.length ∨ goodWithin cfg s b) →
      ∃ (fuel : Nat) (r1 r2 : List CandidateRecord) (r3 : DState)
        (r4 : List DEvent),
        runLoop cfg env rng auth fuel members added (phoneAt cfg s.idx) s =
          some (r1, r2, r3, r4) ∧ r1.length = cfg.members_to_add := by
  intro μ
  induction μ using Nat.strong_induction_on with
  | _ μ IH =>
    intro members added s b hμ hidx hsum hle hcard hgood
    by_cases hdone : cfg.members_to_add ≤ added.length
    · have hg : ¬ (added.length < cfg.members_to_add ∧ members ≠ []) := by
        intro hh
        omega
      refine ⟨1, added, members, s, [], ?_, ?_⟩
      · simp [runLoop, hg]
      · omega
    · have hlt : added.length < cfg.members_to_add := Nat.lt_of_not_le hdone
      have hgw : goodWithin cfg s b := by
        rcases hgood with h | h
        · exact absurd h hdone
        · exact h
      obtain ⟨k, hkb, hk⟩ := hgw
      have hmne : members ≠ [] := by
        intro he
        rw [he] at hcard
        simp at hcard
        omega
      have hg : added.length < cfg.members_to_add ∧ members ≠ [] := ⟨hlt, hmne⟩
      have hR : 0 < cfg.accounts.length := Nat.lt_of_le_of_lt (Nat.zero_le _) hidx
      have hφmem : phoneAt cfg s.idx ∈ cfg.accounts := phoneAt_mem cfg s.idx hidx
      by_cases hq : cfg.max_adds_per_day_per_account ≤
          s.stats (phoneAt cfg s.idx)
      · have hk0 : k ≠ 0 := by
          intro h0
          rw [h0, Nat.add_zero, Nat.mod_eq_of_lt hidx] at hk
          omega
        have hidx' : (switch_account cfg s).idx < cfg.accounts.length :=
          Nat.mod_lt _ hR
        have hgw' : goodWithin cfg (switch_account cfg s) (b - 1) := by
          refine ⟨k - 1, by omega, ?_⟩
          show s.stats (phoneAt cfg (((s.idx + 1) % cfg.accounts.length +
            (k - 1)) % cfg.accounts.length)) < cfg.max_adds_per_day_per_account
          have harith : ((s.idx + 1) % cfg.accounts.length + (k - 1)) %
              cfg.accounts.length = (s.idx + k) % cfg.accounts.length := by
            rw [Nat.mod_add_mod]
            congr 1
            omega
          rw [harith]
          exact hk
        have hμ' : (cfg.members_to_add - added.length) *
            (cfg.accounts.length + 1) + (b - 1) < μ := by
          generalize hP : (cfg.members_to_add - added.length) *
            (cfg.accounts.length + 1) = P at hμ
          omega
        obtain ⟨fuel0, r1, r2, r3, r4, hrun0, hlen0⟩ :=
          IH _ hμ' members added (switch_account cfg s) (b - 1) rfl hidx'
            hsum hle hcard (Or.inr hgw')
        refine ⟨fuel0 + 1, r1, r2, r3, r4, ?_, hlen0⟩
        have hstep : runLoop cfg env rng auth (fuel0 + 1) members added
            (phoneAt cfg s.idx) s =
            runLoop cfg env rng auth fuel0 members added
              (phoneAt cfg ((switch_account cfg s).idx)) (switch_account cfg s) := by
          simp [runLoop, hg, hauth (phoneAt cfg s.idx), hq]
        rw [hstep]
        exact hrun0
      · have hlt2 : s.stats (phoneAt cfg s.idx) <
            cfg.max_adds_per_day_per_account := Nat.lt_of_not_le hq
        obtain ⟨j, evs, hj, heq⟩ := innerLoop_success cfg env rng
          (phoneAt cfg s.idx) henv members added s hlt2
        have hml : 1 ≤ members.length := by
          cases members with
          | nil => exact absurd rfl hmne
          | cons a l => simp
        have hjle1 : j ≤ members.length := by
          rw [hj]
          exact le_trans (Nat.min_le_right _ _) (Nat.min_le_right _ _)
        have hjle2 : j ≤ cfg.members_to_add - added.length := by
          rw [hj]
          exact Nat.min_le_left _ _
        have hj1 : 1 ≤ j := by
          rw [hj]
          have h1 : 1 ≤ cfg.members_to_add - added.length := by omega
          have h2 : 1 ≤ cfg.max_adds_per_day_per_account -
            s.stats (phoneAt cfg s.idx) := by omega
          omega
        have hlenTake : (added ++ members.take j).length = added.length + j := by
          rw [List.length_append, List.length_take, Nat.min_eq_left hjle1]
        have hsum2 : sumStats cfg.accounts
            (bumpN s.stats (phoneAt cfg s.idx) j) = added.length + j := by
          rw [sumStats_bumpN _ _ _ cfg.accounts hnd hφmem, hsum]
        have hle2 : added.length + j ≤ cfg.members_to_add := by omega
        have hcard2 : cfg.members_to_add ≤
            (added.length + j) + (members.drop j).length := by
          rw [List.length_drop]
          omega
        have hgood2 : cfg.members_to_add ≤ added.length + j ∨
            goodWithin cfg
              ⟨s.idx, bumpN s.stats (phoneAt cfg s.idx) j, s.t + j, s.r + j⟩
              cfg.accounts.length := by
          by_cases hfin : cfg.members_to_add ≤ added.length + j
          · exact Or.inl hfin
          · right
            have hsumlt : sumStats cfg.accounts
                (bumpN s.stats (phoneAt cfg s.idx) j) <
                cfg.accounts.length * cfg.max_adds_per_day_per_account := by
              rw [hsum2]
              exact Nat.lt_of_lt_of_le (by omega) hcap
            obtain ⟨p, hpmem, hplt⟩ := exists_under_quota cfg _ hsumlt
            obtain ⟨i, hiR, hip⟩ := mem_phoneAt cfg p hpmem
            obtain ⟨k2, hk2R, hk2⟩ := phone_cycle cfg.accounts.length s.idx i
              hR hidx hiR
            refine ⟨k2, hk2R, ?_⟩
            show bumpN s.stats (phoneAt cfg s.idx) j
              (phoneAt cfg ((s.idx + k2) % cfg.accounts.length)) <
              cfg.max_adds_per_day_per_account
            rw [hk2, hip]
            exact hplt
        have hμ'lt : (cfg.members_to_add - (added.length + j)) *
            (cfg.accounts.length + 1) + cfg.accounts.length < μ := by
          rw [hμ]
          have hgg : (cfg.members_to_add - (added.length + j)) + 1 ≤
              cfg.members_to_add - added.length := by omega
          have h1 : (cfg.members_to_add - (added.length + j)) *
              (cfg.accounts.length + 1) + (cfg.accounts.length + 1) ≤
              (cfg.members_to_add - added.length) * (cfg.accounts.length + 1) := by
            calc (cfg.members_to_add - (added.length + j)) *
                  (cfg.accounts.length + 1) + (cfg.accounts.length + 1)
                = ((cfg.members_to_add - (added.length + j)) + 1) *
                  (cfg.accounts.length + 1) := by ring
              _ ≤ (cfg.members_to_add - added.length) *
                  (cfg.accounts.length + 1) :=
                  Nat.mul_le_mul_right _ hgg
          omega
        obtain ⟨fuel0, r1, r2, r3, r4, hrun0, hlen0⟩ :=
          IH _ hμ'lt (members.drop j) (added ++ members.take j)
            ⟨s.idx, bumpN s.stats (phoneAt cfg s.idx) j, s.t + j, s.r + j⟩
            cfg.accounts.length (by rw [hlenTake]) hidx
            (by rw [hlenTake]; exact hsum2)
            (by rw [hlenTake]; exact hle2)
            (by rw [hlenTake]; exact hcard2)
            (by rw [hlenTake]; exact hgood2)
        have hrun0' : runLoop cfg env rng auth fuel0 (members.drop j)
            (added ++ members.take j) (phoneAt cfg s.idx)
            ⟨s.idx, bumpN s.stats (phoneAt cfg s.idx) j, s.t + j, s.r + j⟩ =
            some (r1, r2, r3, r4) := hrun0
        refine ⟨fuel0 + 1, r1, r2, r3, evs ++ r4, ?_, hlen0⟩
        have hstep : runLoop cfg env rng auth (fuel0 + 1) members added
            (phoneAt cfg s.idx) s =
            (runLoop cfg env rng auth fuel0 (members.drop j)
              (added ++ members.take j) (phoneAt cfg s.idx)
              ⟨s.idx, bumpN s.stats (phoneAt cfg s.idx) j, s.t + j, s.r + j⟩).map
              (fun r => (r.1, r.2.1, r.2.2.1, evs ++ r.2.2.2)) := by
          simp [runLoop, hg, hauth (phoneAt cfg s.idx), hq, heq]
        rw [hstep, hrun0']
        rfl

/-- The all-success run also never finishes when the single account's daily
cap is 0: no attempt is ever made and the loop rotates in place forever. -/
theorem runLoop_quota0b_diverge :
    ∀ fuel, runLoop cfgQuota0b envSuccess rng0 authAll fuel [mem1] []
      (phoneAt cfgQuota0b 0) initState = none := by
  intro fuel
  induction fuel with
  | zero => rfl
  | succ n ih => exact ih

/-- C3 counterexample: `members_to_add = 1`, a Candidate Set of size 1 ≥ 1,
and an environment in which every add attempt succeeds — but the single
account's daily cap is 0, so the Dispatcher never attempts anything and its
outer loop never terminates: no final added set (of size 1 or any other) is
ever produced, contradicting the claim as stated. -/
theorem claim_C3_cex :
    (∀ t, envSuccess t = .success) ∧
    ¬ ∃ fuel res, MemberAdder_run cfgQuota0b envSuccess rng0 authAll fuel
      [mem1] = some res := by
  refine ⟨fun _ => rfl, ?_⟩
  rintro ⟨fuel, res, h⟩
  have hne : ¬ ([mem1] = ([] : List CandidateRecord)) := by decide
  simp only [MemberAdder_run, if_neg hne] at h
  rw [runLoop_quota0b_diverge fuel] at h
  simp at h

/-- C3 (amended): if `members_to_add = N > 0`, the Candidate Set has size
≥ N, every add attempt succeeds, every session is authorized, and —
additionally, as forced by the counterexample — the accounts are distinct
and their combined daily quota `R * Q` is at least N, then the Dispatcher
run terminates and its final added set has exactly N records, with the
final Progress Record's `added_members` of length exactly N. -/
theorem claim_C3_amended (cfg : Config) (env : Nat → AddOutcome)
    (rng : Nat → Nat) (auth : String → Bool) (N : Nat)
    (members : List CandidateRecord)
    (henv : ∀ t, env t = .success) (hauth : ∀ p, auth p = true)
    (hnd : cfg.accounts.Nodup)
    (hN : cfg.members_to_add = N) (hpos : 0 < N)
    (hsize : N ≤ members.length)
    (hcap : N ≤ cfg.accounts.length * cfg.max_adds_per_day_per_account) :
    ∃ fuel res pr,
      MemberAdder_run cfg env rng auth fuel members = some res ∧
      res.added.length = N ∧ res.progress = some pr ∧
      pr.added_members.length = N := by
  subst hN
  have hR : 0 < cfg.accounts.length := by
    rcases Nat.eq_zero_or_pos cfg.accounts.length with h0 | hpos'
    · rw [h0, Nat.zero_mul] at hcap
      omega
    · exact hpos'
  have hQ : 0 < cfg.max_adds_per_day_per_account := by
    rcases Nat.eq_zero_or_pos cfg.max_adds_per_day_per_account with h0 | hpos'
    · rw [h0, Nat.mul_zero] at hcap
      omega
    · exact hpos'
  obtain ⟨fuel, r1, r2, r3, r4, hrun, hlen⟩ :=
    runLoop_success_reaches_target cfg env rng auth henv hauth hnd hcap
      (cfg.members_to_add * (cfg.accounts.length + 1) + cfg.accounts.length)
      members [] initState cfg.accounts.length (by simp) hR
      (sumStats_const0 _) (by simp) (by simpa using hsize)
      (Or.inr ⟨0, hR, by simpa [initState] using hQ⟩)
  have hrun' : runLoop cfg env rng auth fuel members [] (phoneAt cfg 0)
      initState = some (r1, r2, r3, r4) := hrun
  have hmne : ¬ (members = []) := by
    intro he
    rw [he] at hsize
    simp at hsize
    omega
  refine ⟨fuel, ⟨r1, r2, r3, r4, some (save_progress r3.stats r1)⟩,
    save_progress r3.stats r1, ?_, hlen, rfl, hlen⟩
  simp only [MemberAdder_run, if_neg hmne, hrun']

/-- C3 witness: two accounts with cap 1 each (combined quota 2), target 2,
two candidates, all attempts succeeding: the run adds exactly 2. -/
theorem claim_C3_amended_witness :
    ((∀ t, envSuccess t = .success) ∧ cfgSmall.accounts.Nodup ∧
     cfgSmall.members_to_add = 2 ∧
     2 ≤ cfgSmall.accounts.length *
       cfgSmall.max_adds_per_day_per_account) ∧
    ∃ fuel res pr,
      MemberAdder_run cfgSmall envSuccess rng0 authAll fuel [mem1, mem2] =
        some res ∧
      res.added.length = 2 ∧ res.progress = some pr ∧
      pr.added_members.length = 2 :=
  ⟨⟨fun _ => rfl, by decide, rfl, by decide⟩,
   claim_C3_amended cfgSmall envSuccess rng0 authAll 2 [mem1, mem2]
     (fun _ => rfl) (fun _ => rfl) (by decide) rfl (by decide) (by decide)
     (by decide)⟩

end TelegramAddMember
